import Mathlib

/-!
Verification of the skillpack core: reference tracing, categorization,
flat-layout path mapping, content rewriting, frontmatter validation and
pack orchestration, shallowly embedded from the TypeScript sources
(src/lib/trace.ts, src/lib/rewrite.ts, src/lib/pack.ts).

External collaborators (the markdown lexer, the binary/text classifier,
the filesystem, the archive writer) are modelled as inputs: markdown
files carry their lexed token forest, the classifier is a function from
path to verdict, the filesystem is a finite map, and writes are recorded
as an effect trace.
-/

namespace Skillpack

/-! ### JavaScript character classes -/

/-- JS regex whitespace class membership for a character (the characters
matched by a backslash-s class in a JS regular expression, restricted to
the code points this development manipulates). -/
def jsWs (c : Char) : Bool :=
  c = ' ' || c = '\t' || c = '\n' || c = '\x0d' || c = '\x0b' || c = '\x0c' ||
  c = Char.ofNat 0xa0 || c = Char.ofNat 0x2028 || c = Char.ofNat 0x2029 ||
  c = Char.ofNat 0xfeff

/-- JS line terminators: a multiline caret anchor matches right after one. -/
def isLineTerm (c : Char) : Bool :=
  c = '\n' || c = '\x0d' || c = Char.ofNat 0x2028 || c = Char.ofNat 0x2029

/-- Character class of the JS word-or-dash class used in the frontmatter
key pattern: letters, digits, underscore and dash. -/
def isWordDash (c : Char) : Bool :=
  (('a' ≤ c && c ≤ 'z') || ('A' ≤ c && c ≤ 'Z') ||
   ('0' ≤ c && c ≤ '9') || c = '_' || c = '-')

/-- Lowercase ASCII letter test (the leading character of a frontmatter key). -/
def isLowerAz (c : Char) : Bool := 'a' ≤ c && c ≤ 'z'

/-- JS String.prototype.trim: strip JS whitespace from both ends. -/
def jsTrim (cs : List Char) : List Char :=
  ((cs.dropWhile jsWs).reverse.dropWhile jsWs).reverse

/-- Split a character list on a separator character (JS String.split with a
single-character separator). -/
def splitOnChar (sep : Char) : List Char → List (List Char)
  | [] => [[]]
  | c :: rest =>
    let r := splitOnChar sep rest
    if c = sep then [] :: r
    else
      match r with
      | [] => [[c]]
      | l :: ls => (c :: l) :: ls

/-! ### Frontmatter parsing (src/lib/pack.ts)

validateFrontmatter matches the anchored regex
caret dash dash dash newline, lazy any-group, newline dash dash dash.
The lazy group means: the yaml block ends at the earliest occurrence of
a newline followed by three dashes, searched from just after the
opening delimiter. -/

/-- Scan for the earliest split of the input as group plus a newline plus
three dashes; return the group. This is the lazy regex group of the
frontmatter pattern. -/
def findYamlBlock : List Char → Option (List Char)
  | [] => none
  | c :: rest =>
    if c = '\n' && rest.take 3 = ['-', '-', '-'] then some []
    else (findYamlBlock rest).map (fun l => c :: l)

/-- The frontmatter match: content must begin with three dashes and a
newline; the yaml block runs to the earliest closing newline-dash-dash-dash. -/
def matchFrontmatter (cs : List Char) : Option (List Char) :=
  if cs.take 4 = ['-', '-', '-', '\n'] then findYamlBlock (cs.drop 4)
  else none

/-- The key pattern applied to one yaml line: a lowercase letter, then a
maximal run of word-or-dash characters, then a colon. Returns the key. -/
def lineKey (line : List Char) : Option String :=
  match line with
  | [] => none
  | c :: rest =>
    if isLowerAz c then
      let run := rest.takeWhile isWordDash
      if (rest.drop run.length).take 1 = [':'] then some (String.mk (c :: run))
      else none
    else none

/-- The fixed allow-list of frontmatter fields (STANDARD_FIELDS). -/
def STANDARD_FIELDS : List String :=
  ["name", "description", "license", "allowed-tools", "compatibility",
   "metadata"]

/-- All top-level keys of the frontmatter block of a content string, in
line order ([] when there is no frontmatter match). -/
def headerKeys (content : String) : List String :=
  match matchFrontmatter content.data with
  | none => []
  | some yaml => (splitOnChar '\n' yaml).filterMap lineKey

/-- The keys of the frontmatter block that are outside the allow-list. -/
def headerInvalidKeys (content : String) : List String :=
  (headerKeys content).filter (fun k => !STANDARD_FIELDS.contains k)

/-- The message thrown for non-standard frontmatter fields. -/
def invalidFieldsMsg (invalid : List String) : String :=
  "SKILL.md contains non-standard frontmatter fields: " ++
    String.intercalate ", " invalid ++
    "\nValid fields: " ++ String.intercalate ", " STANDARD_FIELDS

/-- validateFrontmatter: succeeds when there is no frontmatter match or
every top-level key is in the allow-list; otherwise fails with a message
naming every offending key. -/
def validateFrontmatter (content : String) : Except String Unit :=
  match matchFrontmatter content.data with
  | none => Except.ok ()
  | some yaml =>
    let invalid :=
      ((splitOnChar '\n' yaml).filterMap lineKey).filter
        (fun k => !STANDARD_FIELDS.contains k)
    if invalid.isEmpty then Except.ok ()
    else Except.error (invalidFieldsMsg invalid)

/-- The name pattern applied to one yaml line: the literal characters of
the word name and a colon, optional whitespace, then at least one
character; the captured remainder is trimmed. -/
def nameLine (line : List Char) : Option String :=
  if line.take 5 = ['n', 'a', 'm', 'e', ':'] && line.drop 5 ≠ [] then
    some (String.mk (jsTrim (line.drop 5)))
  else none

/-- extractName: fails when frontmatter is missing, otherwise returns
the first name field, or fails when no line carries one. -/
def extractName (content : String) : Except String String :=
  match matchFrontmatter content.data with
  | none => Except.error "SKILL.md is missing frontmatter"
  | some yaml =>
    match ((splitOnChar '\n' yaml).filterMap nameLine).head? with
    | some v => Except.ok v
    | none =>
      Except.error "SKILL.md frontmatter is missing required 'name' field"

/-! ### Paths

Absolute canonical paths are lists of segments; the node resolver always
produces such a path. -/

/-- An absolute canonical path, as its list of segments from the root. -/
abbrev FPath := List String

/-- Render an absolute path the way node does. -/
def renderAbs (p : FPath) : String := "/" ++ String.intercalate "/" p

/-- One step of node path normalization over segments. -/
def resolveStep (acc : FPath) (s : String) : FPath :=
  if s = "" || s = "." then acc
  else if s = ".." then acc.dropLast
  else acc ++ [s]

/-- node path.resolve(base, ref) for an absolute canonical base: an
absolute ref ignores the base; dot, dot-dot and empty segments are
normalized away. -/
def resolvePath (base : FPath) (ref : String) : FPath :=
  let segs := (splitOnChar '/' ref.data).map String.mk
  let start := if ref.data.take 1 = ['/'] then [] else base
  segs.foldl resolveStep start

/-- Length of the longest common segment prefix of two paths. -/
def commonLen : FPath → FPath → Nat
  | a :: as_, b :: bs => if a = b then commonLen as_ bs + 1 else 0
  | _, _ => 0

/-- node path.relative(from, to) for absolute canonical paths: strip the
common prefix, go up for what is left of from, then down into to. -/
def relPathStr (fromP toP : FPath) : String :=
  let c := commonLen fromP toP
  String.intercalate "/"
    (List.replicate (fromP.length - c) ".." ++ toP.drop c)

/-- node path.basename for an absolute canonical path. -/
def basenameOf (p : FPath) : String := (p.getLast?).getD ""

/-- node path.dirname for an absolute canonical path. -/
def parentDir (p : FPath) : FPath := p.dropLast

/-! ### Categorization (categorizeFiles in src/lib/trace.ts)

The binary/text classifier is an external tool invoked on the batch of
files; it is modelled as a function giving the per-file verdict line.
File permission bits come from stat and are modelled as a function
giving the mode word. -/

inductive Category where
  | scripts
  | references
  | assets
deriving DecidableEq

/-- The flat-layout directory of a category. -/
def catDir : Category → String
  | Category.scripts => "scripts"
  | Category.references => "references"
  | Category.assets => "assets"

/-- The classification of one file: an executable permission bit wins,
otherwise a binary verdict means asset, otherwise reference. -/
def classifyOne (mode : FPath → Nat) (mime : FPath → String) (f : FPath) :
    Category :=
  if mode f &&& 0o111 ≠ 0 then Category.scripts
  else if mime f = "binary" then Category.assets
  else Category.references

/-- categorizeFiles: every traced file except the root document is
assigned a category; the association list is in traced order. -/
def categorizeFiles (files : List FPath) (skillPath : FPath)
    (mode : FPath → Nat) (mime : FPath → String) : List (FPath × Category) :=
  (files.filter (fun f => f ≠ skillPath)).map
    (fun f => (f, classifyOne mode mime f))

/-- Category map lookup (JS Map.get). -/
def lookupCat (cats : List (FPath × Category)) (f : FPath) : Option Category :=
  (cats.find? (fun e => e.1 = f)).map (fun e => e.2)

/-! ### Flat path mapping (buildFlatPathMap in src/lib/pack.ts)

The destination multimap and the path map are JS Maps; both are
modelled as insertion-ordered association lists. -/

/-- JS Map get-push-or-set on the destination multimap: append the
source to an existing destination entry in place, or insert a new entry
at the end. -/
def addDest (m : List (String × List String)) (d src : String) :
    List (String × List String) :=
  match m with
  | [] => [(d, [src])]
  | (k, vs) :: rest =>
    if k = d then (k, vs ++ [src]) :: rest else (k, vs) :: addDest rest d src

/-- JS Map.set on the path map: replace the value in place, or insert a
new entry at the end. -/
def setAssoc (m : List (String × String)) (k v : String) :
    List (String × String) :=
  match m with
  | [] => [(k, v)]
  | (k0, v0) :: rest =>
    if k0 = k then (k0, v) :: rest else (k0, v0) :: setAssoc rest k v

/-- Multimap lookup (JS Map.get). -/
def lookupMulti (m : List (String × List String)) (d : String) :
    Option (List String) :=
  (m.find? (fun e => e.1 = d)).map (fun e => e.2)

/-- The flat destination of a categorized file. -/
def destOfF (cats : List (FPath × Category)) (f : FPath) : String :=
  match lookupCat cats f with
  | some c => catDir c ++ "/" ++ basenameOf f
  | none => ""

/-- The root-relative source path of a file. -/
def relOf (skillPath : FPath) (f : FPath) : String :=
  relPathStr (parentDir skillPath) f

/-- A file contributes to the flat map when it is not the root document
and has a category. -/
def eligibleB (skillPath : FPath) (cats : List (FPath × Category))
    (f : FPath) : Bool :=
  decide (f ≠ skillPath) && (lookupCat cats f).isSome

/-- The loop of buildFlatPathMap: walk the file set in order, skipping
the root document and uncategorized files, accumulating the path map
and the destination multimap. -/
def buildFlatAux (skillPath : FPath) (cats : List (FPath × Category)) :
    List FPath → List (String × String) → List (String × List String) →
    List (String × String) × List (String × List String)
  | [], pm, dests => (pm, dests)
  | f :: rest, pm, dests =>
    if f = skillPath then buildFlatAux skillPath cats rest pm dests
    else
      match lookupCat cats f with
      | none => buildFlatAux skillPath cats rest pm dests
      | some cat =>
        buildFlatAux skillPath cats rest
          (setAssoc pm (relOf skillPath f) (catDir cat ++ "/" ++ basenameOf f))
          (addDest dests (catDir cat ++ "/" ++ basenameOf f)
            (relOf skillPath f))

/-- The destination multimap accumulated by buildFlatPathMap. -/
def flatDestinations (files : List FPath) (skillPath : FPath)
    (cats : List (FPath × Category)) : List (String × List String) :=
  (buildFlatAux skillPath cats files [] []).2

/-- The destinations with more than one contributing source, in
first-insertion order. -/
def flatCollisions (files : List FPath) (skillPath : FPath)
    (cats : List (FPath × Category)) : List (String × List String) :=
  (flatDestinations files skillPath cats).filter (fun e => 1 < e.2.length)

/-- One rendered collision line. -/
def renderCollision (e : String × List String) : String :=
  "  " ++ e.1 ++ " ← " ++ String.intercalate ", " e.2

/-- The thrown collision message, enumerating every colliding
destination with its full source list. -/
def collisionMsg (cols : List (String × List String)) : String :=
  "Flat format collision — multiple files map to the same destination:\n" ++
    String.intercalate "\n" (cols.map renderCollision)

/-- buildFlatPathMap: build the path map and the destination multimap,
then fail when any destination has more than one source, else return
the path map. -/
def buildFlatPathMap (files : List FPath) (skillPath : FPath)
    (cats : List (FPath × Category)) : Except String (List (String × String)) :=
  let pm := (buildFlatAux skillPath cats files [] []).1
  let collisions := flatCollisions files skillPath cats
  if collisions.isEmpty then Except.ok pm
  else Except.error (collisionMsg collisions)

/-- Specification-side description of the contributing sources of one
destination: the root-relative paths of the eligible files mapping to
it, in file-set order. -/
def sourcesFor (files : List FPath) (skillPath : FPath)
    (cats : List (FPath × Category)) (d : String) : List String :=
  (((files.filter (eligibleB skillPath cats)).filter
    (fun f => destOfF cats f = d)).map (relOf skillPath))

/-- Extend an optional multimap entry by a list of later sources. -/
def extendMulti (o : Option (List String)) (l : List String) :
    Option (List String) :=
  match o with
  | some s => some (s ++ l)
  | none => if l.isEmpty then none else some l

/-! ### Content rewriting (src/lib/rewrite.ts)

rewriteSkillContent performs two global regex replacements over the
document: inline markdown links, then fenced-code file annotations.
Each is modelled as a left-to-right scan with the exact deterministic
match the JS regex engine produces (the character classes involved
admit no backtracking choice). -/

/-- The backtick character that fences code blocks. -/
def btChar : Char := Char.ofNat 96

/-- Strip one leading dot-slash (the anchored leading same-directory
prefix replacement in the rewriter's lookup). -/
def stripDotSlash (cs : List Char) : List Char :=
  if cs.take 2 = ['.', '/'] then cs.drop 2 else cs

/-- The rewriter's lookup: normalize the raw target then consult the
path map. -/
def lookupMapped (m : List (String × String)) (raw : List Char) :
    Option String :=
  (m.find? (fun e => e.1 = String.mk (stripDotSlash raw))).map (fun e => e.2)

/-- Match the link pattern right after an opening square bracket: text up
to the first closing bracket, an opening parenthesis, a nonempty target
up to the first closing parenthesis. Returns text, target and the rest
of the input. -/
def parseLink (cs : List Char) :
    Option (List Char × List Char × List Char) :=
  let text := cs.takeWhile (fun c => c ≠ ']')
  match cs.dropWhile (fun c => c ≠ ']') with
  | ']' :: '(' :: r2 =>
    let href := r2.takeWhile (fun c => c ≠ ')')
    match r2.dropWhile (fun c => c ≠ ')') with
    | ')' :: rest => if href.isEmpty then none else some (text, href, rest)
    | _ => none
  | _ => none

/-- The external-target test of the rewriter: the two recognized URL
scheme prefixes, or a pure same-document fragment. -/
def isExternalHref (href : List Char) : Bool :=
  href.take 7 = "http://".data || href.take 8 = "https://".data ||
  href.take 1 = ['#']

/-- Reassemble one inline link. -/
def mkLink (text href : List Char) : List Char :=
  '[' :: text ++ ']' :: '(' :: href ++ [')']

/-- The replacement for one matched link: external targets are emitted
unchanged; otherwise the fragment is split off, the path part is looked
up, and the fragment is reattached to the mapped (or original) path. -/
def linkRepl (m : List (String × String)) (text href : List Char) :
    List Char :=
  if isExternalHref href then mkLink text href
  else
    let p := href.takeWhile (fun c => c ≠ '#')
    let frag := href.dropWhile (fun c => c ≠ '#')
    match lookupMapped m p with
    | some np => mkLink text (np.data ++ frag)
    | none => mkLink text href

/-- Global link replacement: scan left to right, replacing each match
and continuing after it (fuel bounds the scan; one unit per consumed
character suffices). -/
def rewriteLinksAux (m : List (String × String)) :
    Nat → List Char → List Char
  | 0, cs => cs
  | _ + 1, [] => []
  | fuel + 1, c :: cs =>
    if c = '[' then
      match parseLink cs with
      | some (text, href, rest) =>
        linkRepl m text href ++ rewriteLinksAux m fuel rest
      | none => c :: rewriteLinksAux m fuel cs
    else c :: rewriteLinksAux m fuel cs

/-- The first replacement pass of rewriteSkillContent. -/
def rewriteLinks (m : List (String × String)) (cs : List Char) : List Char :=
  rewriteLinksAux m cs.length cs

/-- Match the fenced-code annotation pattern at a line start: three
backticks, the rest of the language token, a nonempty whitespace run,
the file parameter marker, and a nonempty non-whitespace parameter.
Returns language token, whitespace run, parameter and rest. -/
def parseAnnot (cs : List Char) :
    Option (List Char × List Char × List Char × List Char) :=
  if cs.take 3 = [btChar, btChar, btChar] then
    let cs3 := cs.drop 3
    let lang := cs3.takeWhile (fun c => !jsWs c)
    let r1 := cs3.dropWhile (fun c => !jsWs c)
    let ws := r1.takeWhile jsWs
    let r2 := r1.dropWhile jsWs
    if ws.isEmpty then none
    else if r2.take 5 = ['f', 'i', 'l', 'e', '='] then
      let fp := (r2.drop 5).takeWhile (fun c => !jsWs c)
      let rest := (r2.drop 5).dropWhile (fun c => !jsWs c)
      if fp.isEmpty then none else some (lang, ws, fp, rest)
    else none
  else none

/-- The replacement for one matched annotation: the language token, a
single space, the marker, and the mapped (or original) parameter. -/
def annotRepl (m : List (String × String)) (lang fp : List Char) :
    List Char :=
  [btChar, btChar, btChar] ++ lang ++ ' ' :: 'f' :: 'i' :: 'l' :: 'e' :: '=' ::
    (match lookupMapped m fp with
     | some np => np.data
     | none => fp)

/-- Global annotation replacement: the pattern is anchored at line
starts; the boolean records whether the current position follows a line
terminator (or is the start of input). -/
def rewriteAnnotsAux (m : List (String × String)) :
    Nat → Bool → List Char → List Char
  | 0, _, cs => cs
  | _ + 1, _, [] => []
  | fuel + 1, atStart, c :: cs =>
    if atStart then
      match parseAnnot (c :: cs) with
      | some (lang, _, fp, rest) =>
        annotRepl m lang fp ++ rewriteAnnotsAux m fuel false rest
      | none => c :: rewriteAnnotsAux m fuel (isLineTerm c) cs
    else c :: rewriteAnnotsAux m fuel (isLineTerm c) cs

/-- The second replacement pass of rewriteSkillContent. -/
def rewriteAnnots (m : List (String × String)) (cs : List Char) :
    List Char :=
  rewriteAnnotsAux m cs.length true cs

/-- rewriteSkillContent: rewrite inline links, then fenced-code file
annotations. -/
def rewriteSkillContent (content : String) (pathMap : List (String × String)) :
    String :=
  String.mk (rewriteAnnots pathMap (rewriteLinks pathMap content.data))

/-- A link target is stable under a map when rewriting it changes
nothing: it is external, or its path part is unmapped or mapped to
itself. -/
def stableHref (m : List (String × String)) (href : List Char) : Bool :=
  isExternalHref href ||
    (match lookupMapped m (href.takeWhile (fun c => c ≠ '#')) with
     | none => true
     | some np => np.data == href.takeWhile (fun c => c ≠ '#'))

/-- Every link match in the input is stable. -/
def stableLinksAux (m : List (String × String)) : Nat → List Char → Bool
  | 0, _ => true
  | _ + 1, [] => true
  | fuel + 1, c :: cs =>
    if c = '[' then
      match parseLink cs with
      | some (_, href, rest) => stableHref m href && stableLinksAux m fuel rest
      | none => stableLinksAux m fuel cs
    else stableLinksAux m fuel cs

/-- Every annotation match in the input is stable: the separating
whitespace is already a single space and the parameter is unmapped or
mapped to itself. -/
def stableAnnotsAux (m : List (String × String)) :
    Nat → Bool → List Char → Bool
  | 0, _, _ => true
  | _ + 1, _, [] => true
  | fuel + 1, atStart, c :: cs =>
    if atStart then
      match parseAnnot (c :: cs) with
      | some (_, ws, fp, rest) =>
        (ws == [' ']) &&
        (match lookupMapped m fp with
         | none => true
         | some np => np.data == fp) &&
        stableAnnotsAux m fuel false rest
      | none => stableAnnotsAux m fuel (isLineTerm c) cs
    else stableAnnotsAux m fuel (isLineTerm c) cs

/-- A content string all of whose references already equal their mapped
destinations (every match of either pass is stable). -/
def stableContent (m : List (String × String)) (s : String) : Bool :=
  stableLinksAux m s.data.length s.data &&
  stableAnnotsAux m s.data.length true s.data

/-! ### Markdown tokens and reference extraction (src/lib/trace.ts)

The markdown lexer is the external library: a document is represented
by its lexed token forest. The shapes the extraction walk inspects are
inline links (which carry nested tokens), fenced code blocks (which
carry a language annotation), list containers (which carry items, each
with nested tokens), other containers with nested tokens, and leaves. -/

inductive MToken where
  | link (href : String) (sub : List MToken)
  | codeTok (lang : Option String)
  | listTok (items : List (List MToken))
  | node (sub : List MToken)
  | leaf

/-- The JS regex search for a file parameter inside a language
annotation: the first occurrence of the marker followed by a nonempty
non-whitespace run wins; an occurrence followed by whitespace or the
end is skipped and the search continues one position later. -/
def findFileParam : List Char → Option (List Char)
  | [] => none
  | c :: rest =>
    if (c :: rest).take 5 = ['f', 'i', 'l', 'e', '='] then
      if (((c :: rest).drop 5).takeWhile (fun ch => !jsWs ch)).isEmpty then
        findFileParam rest
      else some (((c :: rest).drop 5).takeWhile (fun ch => !jsWs ch))
    else findFileParam rest

/-- The walk's local-link test: a truthy target that starts neither with
the four characters of the http prefix nor with a fragment marker. -/
def keepHref (h : String) : Bool :=
  !(h.data == []) && !(h.data.take 4 == ['h', 't', 't', 'p']) &&
  !(h.data.take 1 == ['#'])

/-- Remove a trailing fragment: everything before the first hash. -/
def stripFragStr (h : String) : String :=
  String.mk (h.data.takeWhile (fun c => c ≠ '#'))

mutual

/-- Raw references contributed by one token, in walk order. -/
def tokenRefs : MToken → List String
  | MToken.link href sub =>
    (if keepHref href then [stripFragStr href] else []) ++ tokenListRefs sub
  | MToken.codeTok lang =>
    match lang with
    | some l =>
      match findFileParam l.data with
      | some fp => [String.mk fp]
      | none => []
    | none => []
  | MToken.listTok items => tokenItemsRefs items
  | MToken.node sub => tokenListRefs sub
  | MToken.leaf => []

/-- Raw references of a token list. -/
def tokenListRefs : List MToken → List String
  | [] => []
  | t :: ts => tokenRefs t ++ tokenListRefs ts

/-- Raw references of a list of items. -/
def tokenItemsRefs : List (List MToken) → List String
  | [] => []
  | i :: is_ => tokenListRefs i ++ tokenItemsRefs is_

end

/-- extractReferences: collect the raw references of the token forest,
resolve each against the containing document's directory, and keep the
nonempty results. -/
def extractReferences (tokens : List MToken) (basePath : FPath) :
    List FPath :=
  ((tokenListRefs tokens).map (fun r => resolvePath basePath r)).filter
    (fun r => (renderAbs r).length > 0)

mutual

/-- All inline-link targets of one token, in walk order. -/
def linkHrefs : MToken → List String
  | MToken.link href sub => href :: linkHrefsList sub
  | MToken.codeTok _ => []
  | MToken.listTok items => linkHrefsItems items
  | MToken.node sub => linkHrefsList sub
  | MToken.leaf => []

/-- All inline-link targets of a token list. -/
def linkHrefsList : List MToken → List String
  | [] => []
  | t :: ts => linkHrefs t ++ linkHrefsList ts

/-- All inline-link targets of a list of items. -/
def linkHrefsItems : List (List MToken) → List String
  | [] => []
  | i :: is_ => linkHrefsList i ++ linkHrefsItems is_

end

mutual

/-- No fenced code block occurs in the token. -/
def noCode : MToken → Bool
  | MToken.link _ sub => noCodeList sub
  | MToken.codeTok _ => false
  | MToken.listTok items => noCodeItems items
  | MToken.node sub => noCodeList sub
  | MToken.leaf => true

/-- No fenced code block occurs in the token list. -/
def noCodeList : List MToken → Bool
  | [] => true
  | t :: ts => noCode t && noCodeList ts

/-- No fenced code block occurs in the items. -/
def noCodeItems : List (List MToken) → Bool
  | [] => true
  | i :: is_ => noCodeList i && noCodeItems is_

end

/-- The external URL scheme test in the words of the specification: one
of the two recognized URL scheme prefixes. -/
def specExternalScheme (href : String) : Bool :=
  href.data.take 7 == "http://".data || href.data.take 8 == "https://".data

/-- The specification-side candidate set: every inline link target that
does not have a recognized external URL scheme and is not a pure
same-document fragment, fragment-stripped and resolved against the
containing document's directory. -/
def specCandidates (tokens : List MToken) (basePath : FPath) : List FPath :=
  ((linkHrefsList tokens).filter
    (fun h => !specExternalScheme h && !(h.data.take 1 == ['#']))).map
    (fun h => resolvePath basePath (stripFragStr h))

/-! ### Reference tracing (traceReferences in src/lib/trace.ts)

The filesystem is a finite map from absolute canonical path to entry; a
markdown file carries its lexed token forest (the lexer is external).
Directory listing is derived from the map: the children of a directory
are the paths one segment longer. The walk is given fuel, one unit per
nested call; the wrapper supplies enough fuel for the whole graph and
the stability theorem shows more fuel changes nothing. -/

inductive FsEntry where
  | dir
  | file (tokens : List MToken)

abbrev FS := List (FPath × FsEntry)

/-- Path lookup in the filesystem (existsSync and statSync). -/
def lookupFS (fs : FS) (p : FPath) : Option FsEntry :=
  (fs.find? (fun e => e.1 = p)).map (fun e => e.2)

/-- Directory listing with entry types (readdirSync withFileTypes). -/
def childEntries (fs : FS) (p : FPath) : List (String × FsEntry) :=
  fs.filterMap (fun e =>
    if e.1.dropLast = p ∧ e.1 ≠ [] then
      (e.1.getLast?).map (fun n => (n, e.2))
    else none)

/-- A name with the markdown suffix. -/
def mdName (n : String) : Bool := n.data.reverse.take 3 == ['d', 'm', '.']

/-- A path whose rendered form ends with the markdown suffix. -/
def mdPath (p : FPath) : Bool :=
  match p.getLast? with
  | some n => mdName n
  | none => false

/-- The accumulated message for one unresolved reference. -/
def errMsg (p : FPath) : String := "Reference not found: " ++ renderAbs p

structure TraceState where
  visited : List FPath
  files : List FPath
  errors : List String

/-- JS Set.add on the file set. -/
def addOnce (l : List FPath) (p : FPath) : List FPath :=
  if p ∈ l then l else l ++ [p]

/-- Trace a list of extracted references in order. -/
def traceRefsF (tr : FPath → TraceState → TraceState) :
    List FPath → TraceState → TraceState
  | [], s => s
  | r :: rest, s => traceRefsF tr rest (tr r s)

/-- Walk the listed entries of a directory in order: subdirectories
recurse into the trace, plain files are added to the file set, markdown
files additionally have their references extracted (against the
directory itself) and traced. -/
def traceChildrenF (tr : FPath → TraceState → TraceState) (p : FPath) :
    List (String × FsEntry) → TraceState → TraceState
  | [], s => s
  | ce :: rest, s =>
    match ce.2 with
    | FsEntry.dir => traceChildrenF tr p rest (tr (p ++ [ce.1]) s)
    | FsEntry.file toks =>
      let s1 : TraceState := { s with files := addOnce s.files (p ++ [ce.1]) }
      traceChildrenF tr p rest
        (if mdName ce.1 then traceRefsF tr (extractReferences toks p) s1
         else s1)

/-- One trace call: skip a visited path, record it as visited, then
either record a missing reference, walk a directory, or add a file and
trace its references (against its own directory) when it is markdown. -/
def traceStep (fs : FS) : Nat → FPath → TraceState → TraceState
  | 0, _, s => s
  | fuel + 1, p, s =>
    if p ∈ s.visited then s
    else
      let s1 : TraceState := { s with visited := s.visited ++ [p] }
      match lookupFS fs p with
      | none => { s1 with errors := s1.errors ++ [errMsg p] }
      | some FsEntry.dir =>
        traceChildrenF (traceStep fs fuel) p (childEntries fs p) s1
      | some (FsEntry.file toks) =>
        let s2 : TraceState := { s1 with files := addOnce s1.files p }
        if mdPath p then
          traceRefsF (traceStep fs fuel) (extractReferences toks p.dropLast) s2
        else s2

/-- Every path the walk can ever be called on: the root, the filesystem
domain, and every reference extracted from any file against its own
directory. -/
def traceUniverse (fs : FS) (root : FPath) : List FPath :=
  root :: fs.map (fun e => e.1) ++ fs.flatMap (fun e =>
    match e.2 with
    | FsEntry.dir => []
    | FsEntry.file toks => extractReferences toks e.1.dropLast)

/-- Sufficient fuel for a complete walk. -/
def traceFuel (fs : FS) (root : FPath) : Nat :=
  (traceUniverse fs root).length + 1

/-- traceReferences: run the walk from the root document on empty
state. -/
def traceReferences (fs : FS) (root : FPath) : TraceState :=
  traceStep fs (traceFuel fs root) root ⟨[], [], []⟩

/-- The successor references of one path, mirroring the walk: nothing
for a missing path, the extracted references for a markdown file, and
for a directory the subdirectories together with the references of its
markdown file children. -/
def succs (fs : FS) (p : FPath) : List FPath :=
  match lookupFS fs p with
  | none => []
  | some (FsEntry.file toks) =>
    if mdPath p then extractReferences toks p.dropLast else []
  | some FsEntry.dir =>
    (childEntries fs p).flatMap (fun ce =>
      match ce.2 with
      | FsEntry.dir => [p ++ [ce.1]]
      | FsEntry.file toks =>
        if mdName ce.1 then extractReferences toks p else [])

/-- Reachability from the root document along the walk's successor
references. -/
inductive Reaches (fs : FS) (root : FPath) : FPath → Prop where
  | root : Reaches fs root root
  | step {p q : FPath} : Reaches fs root p → q ∈ succs fs p →
      Reaches fs root q

/-- The path carries a file entry. -/
def isFileB (fs : FS) (p : FPath) : Bool :=
  match lookupFS fs p with
  | some (FsEntry.file _) => true
  | _ => false

/-- The closure of files the walk must return: reachable files, plus
the file children of reachable directories. -/
def FilesSpec (fs : FS) (root : FPath) (c : FPath) : Prop :=
  (Reaches fs root c ∧ isFileB fs c = true) ∨
  (c ≠ [] ∧ Reaches fs root c.dropLast ∧
    lookupFS fs c.dropLast = some FsEntry.dir ∧ isFileB fs c = true)

/-- One trace state extends another: visited, files and errors each
grow by appending. -/
def extendsS (s t : TraceState) : Prop :=
  (∃ v, t.visited = s.visited ++ v) ∧ (∃ f, t.files = s.files ++ f) ∧
  (∃ e, t.errors = s.errors ++ e)

/-- The running invariants of the walk: the visited list never repeats
a path, and the error list is exactly the visited missing paths in
visit order. -/
def InvNE (fs : FS) (s : TraceState) : Prop :=
  s.visited.Nodup ∧
  s.errors =
    (s.visited.filter (fun q => (lookupFS fs q).isNone)).map errMsg

/-- Every path first visited between the two states has been fully
handled by the end state: its successors are visited, a file entry is
in the file set, and for a directory every file child is in the file
set. -/
def ClosedNew (fs : FS) (s res : TraceState) : Prop :=
  ∀ q ∈ res.visited, q ∉ s.visited →
    (∀ r ∈ succs fs q, r ∈ res.visited) ∧
    (isFileB fs q = true → q ∈ res.files) ∧
    (∀ c : FPath, c ≠ [] → c.dropLast = q →
      lookupFS fs q = some FsEntry.dir → isFileB fs c = true →
      c ∈ res.files)

/-- Enough fuel remains: the running invariants hold, the visited set
lies in the universe, and the fuel covers the unvisited part of the
universe. -/
def CondF (fs : FS) (root : FPath) (f : Nat) (s : TraceState) : Prop :=
  InvNE fs s ∧ s.visited ⊆ traceUniverse fs root ∧
  (traceUniverse fs root).length + 1 - s.visited.length ≤ f

/-- The soundness invariant: everything visited is reachable and every
collected file is in the file closure. -/
def SoundInv (fs : FS) (root : FPath) (s : TraceState) : Prop :=
  (∀ q ∈ s.visited, Reaches fs root q) ∧
  (∀ c ∈ s.files, FilesSpec fs root c)

/-! ### Pack orchestration (pack, packFlat, packPreserve in src/lib/pack.ts)

Filesystem writes and archive pushes are recorded as an effect trace in
program order; the reads of the root document are modelled by passing
its content as input. An aborted run returns the effects performed
before the throw. -/

inductive FsEffect where
  | createFile (p : String)
  | mkdirRec (p : String)
  | zipEntry (name : String)
  | writeFile (p : String)
  | copyFile (src dest : String)
deriving DecidableEq

/-- node path.join of an output directory and a relative destination. -/
def joinPath (a b : String) : String := a ++ "/" ++ b

/-- node path.dirname on a rendered path string: everything before the
last separator. -/
def dirnameStr (s : String) : String :=
  String.mk (((s.data.reverse.dropWhile (fun c => c ≠ '/')).drop 1).reverse)

/-- String-keyed map lookup (JS Map.get on the path map). -/
def lookupAssocStr (m : List (String × String)) (k : String) :
    Option String :=
  (m.find? (fun e => e.1 = k)).map (fun e => e.2)

structure PackInput where
  files : List FPath
  skillPath : FPath
  outputPath : String
  categories : Option (List (FPath × Category))
  skillContent : String

/-- The archive entries pushed for the non-root files in the zip pack
loop: the root document and unmapped files are skipped. -/
def packZipEntries (files : List FPath) (sp : FPath)
    (pm : List (String × String)) : List FsEffect :=
  files.filterMap (fun f =>
    if f = sp then none
    else
      match lookupAssocStr pm (relOf sp f) with
      | some dest => some (FsEffect.zipEntry dest)
      | none => none)

/-- pack (zip layout): require categories, build the flat path map
(failure propagates with no effects), open the output stream, then read
and validate the root document; a validation failure rejects after the
stream was created but before any entry is appended. -/
def pack (i : PackInput) : List FsEffect × Except String Unit :=
  match i.categories with
  | none => ([], Except.error "categories required for zip format")
  | some cats =>
    match buildFlatPathMap i.files i.skillPath cats with
    | Except.error e => ([], Except.error e)
    | Except.ok pathMap =>
      match validateFrontmatter i.skillContent with
      | Except.error e => ([FsEffect.createFile i.outputPath], Except.error e)
      | Except.ok _ =>
        (FsEffect.createFile i.outputPath :: FsEffect.zipEntry "SKILL.md" ::
          packZipEntries i.files i.skillPath pathMap, Except.ok ())

/-- The copies performed for the non-root files in the flat pack loop. -/
def packFlatCopies (files : List FPath) (sp : FPath) (outputPath : String)
    (pm : List (String × String)) : List FsEffect :=
  files.flatMap (fun f =>
    if f = sp then []
    else
      match lookupAssocStr pm (relOf sp f) with
      | some dest =>
        [FsEffect.mkdirRec (dirnameStr (joinPath outputPath dest)),
         FsEffect.copyFile (renderAbs f) (joinPath outputPath dest)]
      | none => [])

/-- packFlat (flat directory layout): require categories, build the flat
path map (failure propagates with no effects), create the output
directory, then read and validate the root document; a validation
failure throws after the directory was created but before any file is
written. -/
def packFlat (i : PackInput) : List FsEffect × Except String Unit :=
  match i.categories with
  | none => ([], Except.error "categories required for flat format")
  | some cats =>
    match buildFlatPathMap i.files i.skillPath cats with
    | Except.error e => ([], Except.error e)
    | Except.ok pathMap =>
      match validateFrontmatter i.skillContent with
      | Except.error e => ([FsEffect.mkdirRec i.outputPath], Except.error e)
      | Except.ok _ =>
        (FsEffect.mkdirRec i.outputPath ::
          FsEffect.writeFile (joinPath i.outputPath "SKILL.md") ::
          packFlatCopies i.files i.skillPath i.outputPath pathMap,
         Except.ok ())

/-- The preserve loop: each file gets its destination directory created,
then the root document is validated and written (a failure throws
mid-loop) while other files are copied. -/
def packPreserveLoop (sp : FPath) (outputPath : String) (content : String) :
    List FPath → List FsEffect → List FsEffect × Except String Unit
  | [], effs => (effs, Except.ok ())
  | f :: rest, effs =>
    let destPath := joinPath outputPath (relOf sp f)
    let effs1 := effs ++ [FsEffect.mkdirRec (dirnameStr destPath)]
    if f = sp then
      match validateFrontmatter content with
      | Except.error e => (effs1, Except.error e)
      | Except.ok _ =>
        packPreserveLoop sp outputPath content rest
          (effs1 ++ [FsEffect.writeFile destPath])
    else
      packPreserveLoop sp outputPath content rest
        (effs1 ++ [FsEffect.copyFile (renderAbs f) destPath])

/-- packPreserve (preserved directory layout): create the output
directory, then walk the file set. -/
def packPreserve (i : PackInput) : List FsEffect × Except String Unit :=
  packPreserveLoop i.skillPath i.outputPath i.skillContent i.files
    [FsEffect.mkdirRec i.outputPath]

/-! ### Lemmas and claim theorems (part one) -/

theorem lookupCat_categorize (files : List FPath) (skillPath : FPath)
    (mode : FPath → Nat) (mime : FPath → String) (f : FPath) :
    lookupCat (categorizeFiles files skillPath mode mime) f =
      if f ∈ files ∧ f ≠ skillPath then some (classifyOne mode mime f)
      else none := by
  induction files with
  | nil => simp [lookupCat, categorizeFiles]
  | cons a t ih =>
    by_cases hs : a = skillPath
    · have hstep : categorizeFiles (a :: t) skillPath mode mime =
          categorizeFiles t skillPath mode mime := by
        simp [categorizeFiles, List.filter_cons, hs]
      rw [hstep, ih]
      by_cases hf : f ∈ t ∧ f ≠ skillPath
      · rw [if_pos hf, if_pos ⟨List.mem_cons_of_mem a hf.1, hf.2⟩]
      · rw [if_neg hf, if_neg]
        intro hcon
        rcases List.mem_cons.mp hcon.1 with h1 | h1
        · exact hcon.2 (h1.trans hs)
        · exact hf ⟨h1, hcon.2⟩
    · have hstep : categorizeFiles (a :: t) skillPath mode mime =
          (a, classifyOne mode mime a) :: categorizeFiles t skillPath mode mime := by
        simp [categorizeFiles, List.filter_cons, hs]
      by_cases haf : a = f
      · subst haf
        rw [hstep]
        simp [lookupCat, List.find?_cons, hs]
      · rw [hstep]
        have : lookupCat ((a, classifyOne mode mime a) ::
            categorizeFiles t skillPath mode mime) f =
            lookupCat (categorizeFiles t skillPath mode mime) f := by
          simp [lookupCat, List.find?_cons, haf]
        rw [this, ih]
        by_cases hf : f ∈ t ∧ f ≠ skillPath
        · rw [if_pos hf, if_pos ⟨List.mem_cons_of_mem a hf.1, hf.2⟩]
        · rw [if_neg hf, if_neg]
          intro hcon
          rcases List.mem_cons.mp hcon.1 with h1 | h1
          · exact haf h1.symm
          · exact hf ⟨h1, hcon.2⟩

/-- C3: categorization is total over the traced files excluding the root
document, assigns exactly the priority class (an executable permission
bit dominates the content verdict, a binary verdict beats the default),
and the root document never appears in the category map. -/
theorem categorize_total_priority_root_excluded
    (files : List FPath) (skillPath : FPath)
    (mode : FPath → Nat) (mime : FPath → String) :
    (∀ f ∈ files, f ≠ skillPath →
      lookupCat (categorizeFiles files skillPath mode mime) f =
        some (if mode f &&& 0o111 ≠ 0 then Category.scripts
          else if mime f = "binary" then Category.assets
          else Category.references)) ∧
    lookupCat (categorizeFiles files skillPath mode mime) skillPath = none ∧
    (∀ f,
      (lookupCat (categorizeFiles files skillPath mode mime) f).isSome →
      f ∈ files ∧ f ≠ skillPath) := by
  refine ⟨?_, ?_, ?_⟩
  · intro f hf hne
    rw [lookupCat_categorize, if_pos ⟨hf, hne⟩]
    rfl
  · rw [lookupCat_categorize, if_neg]
    intro hcon
    exact hcon.2 rfl
  · intro f hsome
    rw [lookupCat_categorize] at hsome
    by_cases hf : f ∈ files ∧ f ≠ skillPath
    · exact hf
    · rw [if_neg hf] at hsome
      simp at hsome

/-- Witness for C3 at a concrete input: an executable text file is
classified as a script, not a reference. -/
theorem categorize_total_priority_root_excluded_witness :
    lookupCat
      (categorizeFiles [["root", "SKILL.md"], ["root", "run.md"]]
        ["root", "SKILL.md"]
        (fun _ => 0o755) (fun _ => "us-ascii"))
      ["root", "run.md"] = some Category.scripts := by
  have h := (categorize_total_priority_root_excluded
    [["root", "SKILL.md"], ["root", "run.md"]] ["root", "SKILL.md"]
    (fun _ => 0o755) (fun _ => "us-ascii")).1
    ["root", "run.md"] (by decide) (by decide)
  rw [h]
  decide

theorem validateFrontmatter_ok_iff (content : String) :
    validateFrontmatter content = Except.ok () ↔
      headerInvalidKeys content = [] := by
  unfold validateFrontmatter headerInvalidKeys headerKeys
  cases hm : matchFrontmatter content.data with
  | none => simp
  | some yaml =>
    simp only []
    by_cases hinv :
        ((splitOnChar '\n' yaml).filterMap lineKey).filter
          (fun k => !STANDARD_FIELDS.contains k) = []
    · simp [hinv, List.isEmpty_iff]
    · simp [hinv, List.isEmpty_iff]

theorem validateFrontmatter_error_of_invalid (content : String)
    (hne : headerInvalidKeys content ≠ []) :
    validateFrontmatter content =
      Except.error (invalidFieldsMsg (headerInvalidKeys content)) := by
  unfold validateFrontmatter
  cases hm : matchFrontmatter content.data with
  | none =>
    exfalso
    apply hne
    unfold headerInvalidKeys headerKeys
    rw [hm]
    rfl
  | some yaml =>
    have hinv : headerInvalidKeys content =
        ((splitOnChar '\n' yaml).filterMap lineKey).filter
          (fun k => !STANDARD_FIELDS.contains k) := by
      unfold headerInvalidKeys headerKeys
      rw [hm]
    simp only []
    rw [if_neg]
    · rw [hinv]
    · rw [List.isEmpty_iff]
      rw [hinv] at hne
      exact hne

/-- C9: validateFrontmatter fails exactly when the header block carries a
top-level field outside the allow-list; the offending list contains
exactly the header keys outside the allow-list, and the error message is
built from that complete list (every offender is named, not only the
first). -/
theorem validateFrontmatter_iff_names_all_offenders (content : String) :
    (validateFrontmatter content = Except.ok () ↔
      headerInvalidKeys content = []) ∧
    (∀ k, k ∈ headerInvalidKeys content ↔
      k ∈ headerKeys content ∧ k ∉ STANDARD_FIELDS) ∧
    (headerInvalidKeys content ≠ [] →
      validateFrontmatter content =
        Except.error (invalidFieldsMsg (headerInvalidKeys content))) := by
  refine ⟨validateFrontmatter_ok_iff content, ?_,
    validateFrontmatter_error_of_invalid content⟩
  intro k
  unfold headerInvalidKeys
  rw [List.mem_filter]
  simp [List.mem_filter, STANDARD_FIELDS]

/-- Witness for C9 at a concrete input: one non-standard field is
reported through the complete-offender message. -/
theorem validateFrontmatter_iff_names_all_offenders_witness :
    validateFrontmatter "---\nname: x\ntags: y\n---\n# B" =
      Except.error (invalidFieldsMsg ["tags"]) := by
  have h := (validateFrontmatter_iff_names_all_offenders
    "---\nname: x\ntags: y\n---\n# B").2.2 (by decide)
  have hk : headerInvalidKeys "---\nname: x\ntags: y\n---\n# B" = ["tags"] := by
    decide
  rw [h, hk]

/-- C10: content with no leading frontmatter block passes validation (an
absent header is not a validation failure), while extractName fails on
the same content. -/
theorem no_frontmatter_validate_ok_extractName_fails (content : String)
    (h : matchFrontmatter content.data = none) :
    validateFrontmatter content = Except.ok () ∧
    extractName content = Except.error "SKILL.md is missing frontmatter" := by
  unfold validateFrontmatter extractName
  rw [h]
  exact ⟨rfl, rfl⟩

/-- Witness for C10 at a concrete input: a document that starts with a
heading instead of a frontmatter block. -/
theorem no_frontmatter_validate_ok_extractName_fails_witness :
    validateFrontmatter "# Skill\nBody text.\n" = Except.ok () ∧
    extractName "# Skill\nBody text.\n" =
      Except.error "SKILL.md is missing frontmatter" :=
  no_frontmatter_validate_ok_extractName_fails "# Skill\nBody text.\n"
    (by decide)

/-! ### Rewriter lemmas -/

theorem parseLink_decomp (cs t h rest : List Char)
    (hp : parseLink cs = some (t, h, rest)) :
    cs = t ++ ']' :: '(' :: h ++ ')' :: rest := by
  unfold parseLink at hp
  split at hp
  next r2 heq1 =>
    split at hp
    next rest2 heq2 =>
      simp only [] at hp
      split at hp
      next hemp => exact absurd hp (by simp)
      next hemp =>
        simp only [Option.some.injEq, Prod.mk.injEq] at hp
        obtain ⟨ht, hh, hr⟩ := hp
        have e1 : cs = t ++ (']' :: '(' :: r2) := by
          rw [← ht, ← heq1]
          exact (List.takeWhile_append_dropWhile _ _).symm
        have e2 : r2 = h ++ (')' :: rest2) := by
          rw [← hh, ← heq2]
          exact (List.takeWhile_append_dropWhile _ _).symm
        rw [e1, e2, hr]
        simp
    next heq2 => exact absurd hp (by simp)
  next heq1 => exact absurd hp (by simp)

theorem linkRepl_stable (m : List (String × String)) (text href : List Char)
    (h : stableHref m href = true) :
    linkRepl m text href = mkLink text href := by
  unfold linkRepl
  unfold stableHref at h
  by_cases he : isExternalHref href = true
  · rw [if_pos he]
  · rw [if_neg he]
    rw [Bool.or_eq_true] at h
    rcases h with h | h
    · exact absurd h he
    · cases hl : lookupMapped m (href.takeWhile (fun c => c ≠ '#')) with
      | none =>
        simp only [hl]
      | some np =>
        rw [hl] at h
        simp only [beq_iff_eq] at h
        simp only [hl]
        rw [h, List.takeWhile_append_dropWhile]

theorem rewriteLinksAux_stable_eq (m : List (String × String)) :
    ∀ fuel cs, stableLinksAux m fuel cs = true →
      rewriteLinksAux m fuel cs = cs := by
  intro fuel
  induction fuel with
  | zero => intro cs _; rfl
  | succ f ih =>
    intro cs hs
    cases cs with
    | nil => rfl
    | cons c cs =>
      by_cases hc : c = '['
      · cases hp : parseLink cs with
        | none =>
          rw [rewriteLinksAux, if_pos hc, hp]
          rw [stableLinksAux, if_pos hc, hp] at hs
          rw [ih cs hs]
        | some v =>
          obtain ⟨t, h, rest⟩ := v
          rw [rewriteLinksAux, if_pos hc, hp]
          rw [stableLinksAux, if_pos hc, hp] at hs
          rw [Bool.and_eq_true] at hs
          show linkRepl m t h ++ rewriteLinksAux m f rest = c :: cs
          rw [linkRepl_stable m t h hs.1, ih rest hs.2]
          rw [hc, parseLink_decomp cs t h rest hp]
          simp [mkLink]
      · rw [rewriteLinksAux, if_neg hc]
        rw [stableLinksAux, if_neg hc] at hs
        rw [ih cs hs]

theorem parseAnnot_decomp (cs lang ws fp rest : List Char)
    (hp : parseAnnot cs = some (lang, ws, fp, rest)) :
    cs = btChar :: btChar :: btChar :: lang ++ ws ++
      'f' :: 'i' :: 'l' :: 'e' :: '=' :: fp ++ rest := by
  unfold parseAnnot at hp
  split at hp
  next htake =>
    simp only [] at hp
    split at hp
    next hws => exact absurd hp (by simp)
    next hws =>
      split at hp
      next hfile =>
        split at hp
        next hfp => exact absurd hp (by simp)
        next hfp =>
          simp only [Option.some.injEq, Prod.mk.injEq] at hp
          obtain ⟨h1, h2, h3, h4⟩ := hp
          have e0 : cs = btChar :: btChar :: btChar :: cs.drop 3 := by
            conv_lhs => rw [← List.take_append_drop 3 cs]
            rw [htake]
            rfl
          have e1 : cs.drop 3 = lang ++
              ((cs.drop 3).dropWhile (fun c => !jsWs c)) := by
            rw [← h1]
            exact (List.takeWhile_append_dropWhile _ _).symm
          have e2 : (cs.drop 3).dropWhile (fun c => !jsWs c) = ws ++
              (((cs.drop 3).dropWhile (fun c => !jsWs c)).dropWhile jsWs) := by
            rw [← h2]
            exact (List.takeWhile_append_dropWhile _ _).symm
          set r2 := ((cs.drop 3).dropWhile (fun c => !jsWs c)).dropWhile jsWs
            with hr2
          have e3 : r2 = 'f' :: 'i' :: 'l' :: 'e' :: '=' :: r2.drop 5 := by
            conv_lhs => rw [← List.take_append_drop 5 r2]
            rw [hfile]
            rfl
          have e4 : r2.drop 5 = fp ++ rest := by
            rw [← h3, ← h4]
            exact (List.takeWhile_append_dropWhile _ _).symm
          rw [e0, e1, e2, e3, e4]
          simp
      next hfile => exact absurd hp (by simp)
  next htake => exact absurd hp (by simp)

theorem rewriteAnnotsAux_stable_eq (m : List (String × String)) :
    ∀ fuel atStart cs, stableAnnotsAux m fuel atStart cs = true →
      rewriteAnnotsAux m fuel atStart cs = cs := by
  intro fuel
  induction fuel with
  | zero => intro atStart cs _; rfl
  | succ f ih =>
    intro atStart cs hs
    cases cs with
    | nil => rfl
    | cons c cs =>
      by_cases ha : atStart = true
      · subst ha
        cases hp : parseAnnot (c :: cs) with
        | none =>
          rw [rewriteAnnotsAux, if_pos rfl, hp]
          rw [stableAnnotsAux, if_pos rfl, hp] at hs
          rw [ih _ cs hs]
        | some v =>
          obtain ⟨lang, ws, fp, rest⟩ := v
          rw [rewriteAnnotsAux, if_pos rfl, hp]
          rw [stableAnnotsAux, if_pos rfl, hp] at hs
          show annotRepl m lang fp ++ rewriteAnnotsAux m f false rest = c :: cs
          rw [Bool.and_eq_true, Bool.and_eq_true] at hs
          obtain ⟨⟨hws, hfp⟩, hrest⟩ := hs
          rw [ih false rest hrest]
          have hd := parseAnnot_decomp (c :: cs) lang ws fp rest hp
          rw [hd]
          simp only [beq_iff_eq] at hws
          unfold annotRepl
          rw [hws]
          cases hl : lookupMapped m fp with
          | none => simp
          | some np =>
            rw [hl] at hfp
            simp only [hl, beq_iff_eq] at hfp ⊢
            rw [hfp]
            simp
      · rw [Bool.not_eq_true] at ha
        subst ha
        rw [rewriteAnnotsAux]
        rw [stableAnnotsAux] at hs
        simp only [Bool.false_eq_true, if_false] at hs ⊢
        rw [ih _ cs hs]

theorem rewriteSkillContent_stable_eq (m : List (String × String))
    (s : String) (h : stableContent m s = true) :
    rewriteSkillContent s m = s := by
  unfold stableContent at h
  rw [Bool.and_eq_true] at h
  unfold rewriteSkillContent rewriteLinks rewriteAnnots
  rw [rewriteLinksAux_stable_eq m s.data.length s.data h.1]
  rw [rewriteAnnotsAux_stable_eq m s.data.length true s.data h.2]

/-- C5: the rewriter rewrites exactly the references that resolve in the
path map: a mapped link keeps its fragment, an external link, a pure
fragment link and an unmapped link are unchanged, and a leading
same-directory prefix is stripped before lookup. -/
theorem rewriteSkillContent_examples :
    rewriteSkillContent "See [text](docs/api.md#section)."
        [("docs/api.md", "references/api.md")] =
      "See [text](references/api.md#section)." ∧
    rewriteSkillContent "Visit [site](https://example.com)."
        [("docs/api.md", "references/api.md")] =
      "Visit [site](https://example.com)." ∧
    rewriteSkillContent "See [above](#introduction)."
        [("docs/api.md", "references/api.md")] =
      "See [above](#introduction)." ∧
    rewriteSkillContent "See [x](unknown/file.md)."
        [("docs/api.md", "references/api.md")] =
      "See [x](unknown/file.md)." ∧
    rewriteSkillContent "See [text](./docs/api.md)."
        [("docs/api.md", "references/api.md")] =
      "See [text](references/api.md)." := by
  refine ⟨?_, ?_, ?_, ?_, ?_⟩ <;> decide

/-- C6 counterexample: with a map whose value is itself another key,
rewriting its own output changes the text again, so rewriting is not
idempotent for every path map. -/
theorem rewriteSkillContent_not_idempotent :
    rewriteSkillContent
        (rewriteSkillContent "[x](docs/b.md)"
          [("docs/b.md", "references/b.md"),
           ("references/b.md", "scripts/b.md")])
        [("docs/b.md", "references/b.md"),
         ("references/b.md", "scripts/b.md")] ≠
      rewriteSkillContent "[x](docs/b.md)"
        [("docs/b.md", "references/b.md"),
         ("references/b.md", "scripts/b.md")] := by
  decide

/-- C6 amended: rewriting is a no-op on content whose references already
equal their mapped destinations; in particular a second application with
the same map changes nothing whenever the first pass produced such
content (which holds as soon as no mapped destination is itself a key of
the map). -/
theorem rewriteSkillContent_idempotent_on_stable (m : List (String × String))
    (c : String)
    (h : stableContent m (rewriteSkillContent c m) = true) :
    rewriteSkillContent (rewriteSkillContent c m) m =
      rewriteSkillContent c m :=
  rewriteSkillContent_stable_eq m (rewriteSkillContent c m) h

/-! ### Flat path map lemmas -/

theorem lookupMulti_cons_eq (k : String) (vs : List String)
    (rest : List (String × List String)) :
    lookupMulti ((k, vs) :: rest) k = some vs := by
  simp [lookupMulti, List.find?_cons_of_pos]

theorem lookupMulti_cons_ne (k : String) (vs : List String)
    (rest : List (String × List String)) (d0 : String) (h : ¬ k = d0) :
    lookupMulti ((k, vs) :: rest) d0 = lookupMulti rest d0 := by
  unfold lookupMulti
  rw [List.find?_cons_of_neg]
  simp [h]

theorem lookupMulti_addDest (m : List (String × List String))
    (d src d0 : String) :
    lookupMulti (addDest m d src) d0 =
      if d0 = d then some (((lookupMulti m d).getD []) ++ [src])
      else lookupMulti m d0 := by
  induction m with
  | nil =>
    by_cases h : d0 = d
    · subst h
      simp [addDest, lookupMulti]
    · have hsym : ¬ d = d0 := fun h2 => h h2.symm
      rw [if_neg h]
      show lookupMulti [(d, [src])] d0 = lookupMulti [] d0
      rw [lookupMulti_cons_ne d [src] [] d0 hsym]
  | cons e rest ih =>
    obtain ⟨k, vs⟩ := e
    by_cases hk : k = d
    · subst hk
      have hstep : addDest ((k, vs) :: rest) k src =
          (k, vs ++ [src]) :: rest := by
        rw [addDest, if_pos rfl]
      rw [hstep]
      by_cases h0 : d0 = k
      · subst h0
        rw [if_pos rfl, lookupMulti_cons_eq, lookupMulti_cons_eq]
        rfl
      · have hsym : ¬ k = d0 := fun h2 => h0 h2.symm
        rw [if_neg h0, lookupMulti_cons_ne _ _ _ _ hsym,
          lookupMulti_cons_ne _ _ _ _ hsym]
    · have hstep : addDest ((k, vs) :: rest) d src =
          (k, vs) :: addDest rest d src := by
        rw [addDest, if_neg hk]
      rw [hstep]
      by_cases h0 : d0 = k
      · subst h0
        have hne : ¬ d0 = d := fun h2 => hk (h2 ▸ rfl)
        rw [if_neg hne, lookupMulti_cons_eq, lookupMulti_cons_eq]
      · have hsym : ¬ k = d0 := fun h2 => h0 h2.symm
        rw [lookupMulti_cons_ne _ _ _ _ hsym,
          lookupMulti_cons_ne _ _ _ _ hsym, ih]
        by_cases hd : d0 = d
        · subst hd
          rw [if_pos rfl, if_pos rfl,
            lookupMulti_cons_ne _ _ _ _ hsym]
        · rw [if_neg hd, if_neg hd]

theorem addDest_keys (m : List (String × List String)) (d src : String) :
    (addDest m d src).map (fun e => e.1) =
      if d ∈ m.map (fun e => e.1) then m.map (fun e => e.1)
      else m.map (fun e => e.1) ++ [d] := by
  induction m with
  | nil => simp [addDest]
  | cons e rest ih =>
    obtain ⟨k, vs⟩ := e
    by_cases hk : k = d
    · subst hk
      simp [addDest]
    · simp only [addDest, if_neg hk, List.map_cons, ih]
      have : (d ∈ k :: rest.map (fun e => e.1)) ↔
          (d ∈ rest.map (fun e => e.1)) := by
        constructor
        · intro h
          rcases List.mem_cons.mp h with h | h
          · exact absurd h.symm hk
          · exact h
        · exact List.mem_cons_of_mem k
      by_cases hd : d ∈ rest.map (fun e => e.1)
      · rw [if_pos hd, if_pos (this.mpr hd)]
      · rw [if_neg hd, if_neg (fun h => hd (this.mp h))]
        simp

theorem addDest_keys_nodup (m : List (String × List String)) (d src : String)
    (h : (m.map (fun e => e.1)).Nodup) :
    ((addDest m d src).map (fun e => e.1)).Nodup := by
  rw [addDest_keys]
  by_cases hd : d ∈ m.map (fun e => e.1)
  · rw [if_pos hd]; exact h
  · rw [if_neg hd]
    simp [List.nodup_append, h, hd]

theorem buildFlatAux_snd_keys_nodup (sp : FPath)
    (cats : List (FPath × Category)) :
    ∀ (files : List FPath) (pm : List (String × String))
      (dests : List (String × List String)),
      (dests.map (fun e => e.1)).Nodup →
      (((buildFlatAux sp cats files pm dests).2).map (fun e => e.1)).Nodup := by
  intro files
  induction files with
  | nil => intro pm dests h; exact h
  | cons f rest ih =>
    intro pm dests h
    by_cases hsp : f = sp
    · rw [buildFlatAux, if_pos hsp]
      exact ih pm dests h
    · rw [buildFlatAux, if_neg hsp]
      cases hc : lookupCat cats f with
      | none => exact ih pm dests h
      | some cat => exact ih _ _ (addDest_keys_nodup _ _ _ h)

theorem mem_iff_lookupMulti (m : List (String × List String))
    (h : (m.map (fun e => e.1)).Nodup) (d : String) (vs : List String) :
    (d, vs) ∈ m ↔ lookupMulti m d = some vs := by
  induction m with
  | nil => simp [lookupMulti]
  | cons e rest ih =>
    obtain ⟨k, ws⟩ := e
    rw [List.map_cons, List.nodup_cons] at h
    by_cases hk : k = d
    · subst hk
      constructor
      · intro hm
        rcases List.mem_cons.mp hm with hm | hm
        · obtain ⟨h1, h2⟩ := Prod.mk.injEq .. ▸ hm
          simp [lookupMulti, List.find?]
          exact (congrArg (fun e => e.2) hm).symm
        · exfalso
          exact h.1 (List.mem_map.mpr ⟨(k, vs), hm, rfl⟩)
      · intro hl
        simp [lookupMulti, List.find?] at hl
        subst hl
        exact List.mem_cons_self _ _
    · constructor
      · intro hm
        rcases List.mem_cons.mp hm with hm | hm
        · exact absurd (congrArg (fun e => e.1) hm).symm hk
        · rw [show lookupMulti ((k, ws) :: rest) d = lookupMulti rest d by
            simp [lookupMulti, List.find?, hk]]
          exact (ih h.2).mp hm
      · intro hl
        rw [show lookupMulti ((k, ws) :: rest) d = lookupMulti rest d by
          simp [lookupMulti, List.find?, hk]] at hl
        exact List.mem_cons_of_mem _ ((ih h.2).mpr hl)

theorem sourcesFor_cons (sp : FPath) (cats : List (FPath × Category))
    (f : FPath) (rest : List FPath) (d : String) :
    sourcesFor (f :: rest) sp cats d =
      (if eligibleB sp cats f = true ∧ destOfF cats f = d
        then [relOf sp f] else []) ++ sourcesFor rest sp cats d := by
  unfold sourcesFor
  by_cases he : eligibleB sp cats f = true
  · rw [List.filter_cons_of_pos he]
    by_cases hd : destOfF cats f = d
    · rw [List.filter_cons_of_pos (by simp [hd]), if_pos ⟨he, hd⟩]
      simp
    · rw [List.filter_cons_of_neg (by simp [hd]), if_neg (fun h => hd h.2)]
      simp
  · rw [List.filter_cons_of_neg (by simp [he]), if_neg (fun h => he h.1)]
    simp

theorem buildFlatAux_snd_lookup (sp : FPath) (cats : List (FPath × Category)) :
    ∀ (files : List FPath) (pm : List (String × String))
      (dests : List (String × List String)) (d : String),
      lookupMulti (buildFlatAux sp cats files pm dests).2 d =
        extendMulti (lookupMulti dests d) (sourcesFor files sp cats d) := by
  intro files
  induction files with
  | nil =>
    intro pm dests d
    rw [buildFlatAux]
    unfold sourcesFor
    cases lookupMulti dests d <;> simp [extendMulti]
  | cons f rest ih =>
    intro pm dests d
    by_cases hsp : f = sp
    · have hne : ¬ (eligibleB sp cats f = true ∧ destOfF cats f = d) := by
        intro hcon
        have := hcon.1
        rw [eligibleB] at this
        simp [hsp] at this
      rw [buildFlatAux, if_pos hsp, ih, sourcesFor_cons, if_neg hne,
        List.nil_append]
    · rw [buildFlatAux, if_neg hsp]
      cases hc : lookupCat cats f with
      | none =>
        have hne : ¬ (eligibleB sp cats f = true ∧ destOfF cats f = d) := by
          intro hcon
          have := hcon.1
          rw [eligibleB, hc] at this
          simp at this
        rw [ih, sourcesFor_cons, if_neg hne, List.nil_append]
      | some cat =>
        have helig : eligibleB sp cats f = true := by
          rw [eligibleB, hc]
          simp [hsp]
        have hdest : destOfF cats f = catDir cat ++ "/" ++ basenameOf f := by
          rw [destOfF, hc]
        rw [ih, sourcesFor_cons, lookupMulti_addDest]
        by_cases hd : d = catDir cat ++ "/" ++ basenameOf f
        · subst hd
          rw [if_pos rfl, if_pos ⟨helig, hdest⟩]
          cases hl : lookupMulti dests (catDir cat ++ "/" ++ basenameOf f) with
          | none => simp [extendMulti]
          | some s => simp [extendMulti]
        · have hne2 : ¬ (eligibleB sp cats f = true ∧ destOfF cats f = d) := by
            intro hcon
            exact hd (hcon.2.symm.trans hdest)
          rw [if_neg hd, if_neg hne2, List.nil_append]

theorem setAssoc_mem (m : List (String × String)) (k v : String)
    (e : String × String) (h : e ∈ setAssoc m k v) : e ∈ m ∨ e = (k, v) := by
  induction m with
  | nil =>
    simp [setAssoc] at h
    exact Or.inr h
  | cons e0 rest ih =>
    obtain ⟨k0, v0⟩ := e0
    by_cases hk : k0 = k
    · rw [setAssoc, if_pos hk] at h
      rcases List.mem_cons.mp h with h | h
      · exact Or.inr (by rw [h, hk])
      · exact Or.inl (List.mem_cons_of_mem _ h)
    · rw [setAssoc, if_neg hk] at h
      rcases List.mem_cons.mp h with h | h
      · exact Or.inl (by rw [h]; exact List.mem_cons_self _ _)
      · rcases ih h with h | h
        · exact Or.inl (List.mem_cons_of_mem _ h)
        · exact Or.inr h

theorem buildFlatAux_fst_mem (sp : FPath) (cats : List (FPath × Category)) :
    ∀ (files : List FPath) (pm : List (String × String))
      (dests : List (String × List String)) (e : String × String),
      e ∈ (buildFlatAux sp cats files pm dests).1 →
      e ∈ pm ∨ ∃ f ∈ files, eligibleB sp cats f = true ∧
        e = (relOf sp f, destOfF cats f) := by
  intro files
  induction files with
  | nil =>
    intro pm dests e h
    rw [buildFlatAux] at h
    exact Or.inl h
  | cons f rest ih =>
    intro pm dests e h
    by_cases hsp : f = sp
    · rw [buildFlatAux, if_pos hsp] at h
      rcases ih _ _ _ h with h | ⟨g, hg, he, hee⟩
      · exact Or.inl h
      · exact Or.inr ⟨g, List.mem_cons_of_mem _ hg, he, hee⟩
    · rw [buildFlatAux, if_neg hsp] at h
      cases hc : lookupCat cats f with
      | none =>
        rw [hc] at h
        rcases ih _ _ _ h with h | ⟨g, hg, he, hee⟩
        · exact Or.inl h
        · exact Or.inr ⟨g, List.mem_cons_of_mem _ hg, he, hee⟩
      | some cat =>
        rw [hc] at h
        rcases ih _ _ _ h with h | ⟨g, hg, he, hee⟩
        · rcases setAssoc_mem _ _ _ _ h with h | h
          · exact Or.inl h
          · refine Or.inr ⟨f, List.mem_cons_self _ _, ?_, ?_⟩
            · rw [eligibleB, hc]
              simp [hsp]
            · rw [h, destOfF, hc]
        · exact Or.inr ⟨g, List.mem_cons_of_mem _ hg, he, hee⟩

theorem two_mem_le_length {α : Type} {l : List α} {a b : α}
    (ha : a ∈ l) (hb : b ∈ l) (hne : a ≠ b) : 2 ≤ l.length := by
  induction l with
  | nil => exact absurd ha (List.not_mem_nil a)
  | cons x t ih =>
    rcases List.mem_cons.mp ha with hax | hax
    · rcases List.mem_cons.mp hb with hbx | hbx
      · exact absurd (hax.trans hbx.symm) hne
      · have := List.length_pos_of_mem hbx
        simp only [List.length_cons]
        omega
    · rcases List.mem_cons.mp hb with hbx | hbx
      · have := List.length_pos_of_mem hax
        simp only [List.length_cons]
        omega
      · have := ih hax hbx
        simp only [List.length_cons]
        omega

/-- The collision list contains exactly the destinations with at least
two contributing sources, each with its complete source list. -/
theorem flatCollisions_mem_iff (files : List FPath) (sp : FPath)
    (cats : List (FPath × Category)) (d : String) (srcs : List String) :
    (d, srcs) ∈ flatCollisions files sp cats ↔
      (srcs = sourcesFor files sp cats d ∧ 2 ≤ srcs.length) := by
  have hnd : ((flatDestinations files sp cats).map (fun e => e.1)).Nodup :=
    buildFlatAux_snd_keys_nodup sp cats files [] [] (by simp)
  have hlk : ∀ vs, ((d, vs) ∈ flatDestinations files sp cats ↔
      lookupMulti (flatDestinations files sp cats) d = some vs) :=
    fun vs => mem_iff_lookupMulti _ hnd d vs
  have hval : lookupMulti (flatDestinations files sp cats) d =
      extendMulti none (sourcesFor files sp cats d) := by
    unfold flatDestinations
    rw [buildFlatAux_snd_lookup]
    rfl
  constructor
  · intro h
    unfold flatCollisions at h
    rw [List.mem_filter] at h
    obtain ⟨hmem, hlen⟩ := h
    have hsome := (hlk srcs).mp hmem
    rw [hval] at hsome
    simp only [extendMulti] at hsome
    split at hsome
    · exact absurd hsome (by simp)
    · have hs : srcs = sourcesFor files sp cats d := by
        injection hsome with h2
        exact h2.symm
      refine ⟨hs, ?_⟩
      simp at hlen
      omega
  · intro hpair
    obtain ⟨hs, hlen⟩ := hpair
    subst hs
    unfold flatCollisions
    rw [List.mem_filter]
    have hne : sourcesFor files sp cats d ≠ [] := by
      intro h0
      rw [h0] at hlen
      simp at hlen
    have hcne : ¬ ((sourcesFor files sp cats d).isEmpty = true) := by
      rw [List.isEmpty_iff]
      exact hne
    constructor
    · rw [hlk _, hval]
      simp only [extendMulti]
      rw [if_neg hcne]
    · simp
      omega

/-- C2: buildFlatPathMap either returns a path map in which every flat
destination has exactly one contributing source (so distinct map
entries carry distinct destinations), or fails atomically with a
message enumerating every colliding destination together with the full
list of its contributing source paths. -/
theorem buildFlatPathMap_unique_or_reports_all_collisions
    (files : List FPath) (sp : FPath) (cats : List (FPath × Category)) :
    (∀ pm, buildFlatPathMap files sp cats = Except.ok pm →
      (∀ d, (sourcesFor files sp cats d).length ≤ 1) ∧
      (∀ e1 ∈ pm, ∀ e2 ∈ pm, e1.2 = e2.2 → e1.1 = e2.1)) ∧
    (∀ msg, buildFlatPathMap files sp cats = Except.error msg →
      msg = collisionMsg (flatCollisions files sp cats) ∧
      flatCollisions files sp cats ≠ [] ∧
      (∀ d srcs, (d, srcs) ∈ flatCollisions files sp cats ↔
        (srcs = sourcesFor files sp cats d ∧ 2 ≤ srcs.length))) := by
  constructor
  · intro pm hok
    unfold buildFlatPathMap at hok
    simp only [] at hok
    split at hok
    case isTrue hemp =>
      rw [List.isEmpty_iff] at hemp
      have hnocol : ∀ d srcs, ¬ ((d, srcs) ∈ flatCollisions files sp cats) := by
        intro d srcs hcon
        rw [hemp] at hcon
        exact List.not_mem_nil _ hcon
      have hle : ∀ d, (sourcesFor files sp cats d).length ≤ 1 := by
        intro d
        by_contra hgt
        push_neg at hgt
        exact hnocol d (sourcesFor files sp cats d)
          ((flatCollisions_mem_iff files sp cats d _).mpr ⟨rfl, hgt⟩)
      refine ⟨hle, ?_⟩
      intro e1 he1 e2 he2 hdeq
      injection hok with hok
      rw [← hok] at he1 he2
      rcases buildFlatAux_fst_mem sp cats files [] [] e1 he1 with h1 | ⟨f1, hf1, helig1, he1e⟩
      · exact absurd h1 (List.not_mem_nil e1)
      rcases buildFlatAux_fst_mem sp cats files [] [] e2 he2 with h2 | ⟨f2, hf2, helig2, he2e⟩
      · exact absurd h2 (List.not_mem_nil e2)
      by_contra hne
      have hd1 : e1.2 = destOfF cats f1 := by rw [he1e]
      have hd2 : e2.2 = destOfF cats f2 := by rw [he2e]
      have hmem1 : e1.1 ∈ sourcesFor files sp cats e1.2 := by
        unfold sourcesFor
        refine List.mem_map.mpr ⟨f1, ?_, by rw [he1e]⟩
        rw [List.mem_filter, List.mem_filter]
        exact ⟨⟨hf1, helig1⟩, by rw [← hd1]; simp⟩
      have hmem2 : e2.1 ∈ sourcesFor files sp cats e1.2 := by
        unfold sourcesFor
        refine List.mem_map.mpr ⟨f2, ?_, by rw [he2e]⟩
        rw [List.mem_filter, List.mem_filter]
        refine ⟨⟨hf2, helig2⟩, ?_⟩
        rw [← hd2, ← hdeq]
        simp
      have := two_mem_le_length hmem1 hmem2 hne
      have := hle e1.2
      omega
    case isFalse hemp => exact absurd hok (by simp)
  · intro msg herr
    unfold buildFlatPathMap at herr
    simp only [] at herr
    split at herr
    case isTrue hemp => exact absurd herr (by simp)
    case isFalse hemp =>
      injection herr with herr
      refine ⟨herr.symm, ?_, ?_⟩
      · intro hcon
        rw [← List.isEmpty_iff] at hcon
        exact hemp hcon
      · exact fun d srcs => flatCollisions_mem_iff files sp cats d srcs

/-- Witness for C2 at a concrete input: two files named README.md in
different subdirectories collide under the references destination, and
the collision record carries both source paths. -/
theorem buildFlatPathMap_unique_or_reports_all_collisions_witness :
    ("references/README.md",
      sourcesFor
        [["r", "SKILL.md"], ["r", "docs", "README.md"],
         ["r", "examples", "README.md"]]
        ["r", "SKILL.md"]
        (categorizeFiles
          [["r", "SKILL.md"], ["r", "docs", "README.md"],
           ["r", "examples", "README.md"]]
          ["r", "SKILL.md"] (fun _ => 0o644) (fun _ => "us-ascii"))
        "references/README.md") ∈
      flatCollisions
        [["r", "SKILL.md"], ["r", "docs", "README.md"],
         ["r", "examples", "README.md"]]
        ["r", "SKILL.md"]
        (categorizeFiles
          [["r", "SKILL.md"], ["r", "docs", "README.md"],
           ["r", "examples", "README.md"]]
          ["r", "SKILL.md"] (fun _ => 0o644) (fun _ => "us-ascii")) := by
  have h := (buildFlatPathMap_unique_or_reports_all_collisions
    [["r", "SKILL.md"], ["r", "docs", "README.md"],
     ["r", "examples", "README.md"]]
    ["r", "SKILL.md"]
    (categorizeFiles
      [["r", "SKILL.md"], ["r", "docs", "README.md"],
       ["r", "examples", "README.md"]]
      ["r", "SKILL.md"] (fun _ => 0o644) (fun _ => "us-ascii"))).2
  have h2 := (h _ (by rfl)).2.2 "references/README.md"
    (sourcesFor
      [["r", "SKILL.md"], ["r", "docs", "README.md"],
       ["r", "examples", "README.md"]]
      ["r", "SKILL.md"]
      (categorizeFiles
        [["r", "SKILL.md"], ["r", "docs", "README.md"],
         ["r", "examples", "README.md"]]
        ["r", "SKILL.md"] (fun _ => 0o644) (fun _ => "us-ascii"))
      "references/README.md")
  exact h2.mpr ⟨rfl, by decide⟩

/-! ### Trace walk lemmas: state extension -/

theorem extendsS_refl (s : TraceState) : extendsS s s :=
  ⟨⟨[], by simp⟩, ⟨[], by simp⟩, ⟨[], by simp⟩⟩

theorem extendsS_trans {s t u : TraceState} (h1 : extendsS s t)
    (h2 : extendsS t u) : extendsS s u := by
  obtain ⟨⟨v1, hv1⟩, ⟨f1, hf1⟩, ⟨e1, he1⟩⟩ := h1
  obtain ⟨⟨v2, hv2⟩, ⟨f2, hf2⟩, ⟨e2, he2⟩⟩ := h2
  refine ⟨⟨v1 ++ v2, ?_⟩, ⟨f1 ++ f2, ?_⟩, ⟨e1 ++ e2, ?_⟩⟩
  · rw [hv2, hv1, List.append_assoc]
  · rw [hf2, hf1, List.append_assoc]
  · rw [he2, he1, List.append_assoc]

theorem extendsS_mem_visited {s t : TraceState} (h : extendsS s t)
    {q : FPath} (hq : q ∈ s.visited) : q ∈ t.visited := by
  obtain ⟨⟨v, hv⟩, _, _⟩ := h
  rw [hv]
  exact List.mem_append_left _ hq

theorem extendsS_mem_files {s t : TraceState} (h : extendsS s t)
    {q : FPath} (hq : q ∈ s.files) : q ∈ t.files := by
  obtain ⟨_, ⟨f, hf⟩, _⟩ := h
  rw [hf]
  exact List.mem_append_left _ hq

theorem extendsS_visited_length {s t : TraceState} (h : extendsS s t) :
    s.visited.length ≤ t.visited.length := by
  obtain ⟨⟨v, hv⟩, _, _⟩ := h
  rw [hv, List.length_append]
  omega

theorem addOnce_extends (l : List FPath) (p : FPath) :
    ∃ ext, addOnce l p = l ++ ext := by
  unfold addOnce
  by_cases h : p ∈ l
  · exact ⟨[], by simp [h]⟩
  · exact ⟨[p], by simp [h]⟩

theorem mem_addOnce_self (l : List FPath) (p : FPath) : p ∈ addOnce l p := by
  unfold addOnce
  by_cases h : p ∈ l
  · simp only [if_pos h]
    exact h
  · simp [h]

theorem filesAdd_extends (s : TraceState) (p : FPath) :
    extendsS s { s with files := addOnce s.files p } := by
  obtain ⟨ext, hext⟩ := addOnce_extends s.files p
  exact ⟨⟨[], by simp⟩, ⟨ext, hext⟩, ⟨[], by simp⟩⟩

theorem traceRefsF_extends (tr : FPath → TraceState → TraceState)
    (htr : ∀ r s, extendsS s (tr r s)) :
    ∀ rs s, extendsS s (traceRefsF tr rs s)
  | [], s => extendsS_refl s
  | r :: rest, s =>
    extendsS_trans (htr r s) (traceRefsF_extends tr htr rest (tr r s))

theorem traceChildrenF_extends (tr : FPath → TraceState → TraceState)
    (htr : ∀ r s, extendsS s (tr r s)) (p : FPath) :
    ∀ entries s, extendsS s (traceChildrenF tr p entries s)
  | [], s => extendsS_refl s
  | (n, FsEntry.dir) :: rest, s =>
    extendsS_trans (htr (p ++ [n]) s)
      (traceChildrenF_extends tr htr p rest (tr (p ++ [n]) s))
  | (n, FsEntry.file toks) :: rest, s => by
    rw [traceChildrenF]
    dsimp only
    refine extendsS_trans (filesAdd_extends s (p ++ [n])) ?_
    by_cases hmd : mdName n = true
    · rw [if_pos hmd]
      exact extendsS_trans (traceRefsF_extends tr htr _ _)
        (traceChildrenF_extends tr htr p rest _)
    · rw [if_neg hmd]
      exact traceChildrenF_extends tr htr p rest _

theorem traceStep_extends (fs : FS) :
    ∀ fuel p s, extendsS s (traceStep fs fuel p s) := by
  intro fuel
  induction fuel with
  | zero => intro p s; exact extendsS_refl s
  | succ f ih =>
    intro p s
    rw [traceStep]
    by_cases hv : p ∈ s.visited
    · rw [if_pos hv]; exact extendsS_refl s
    · rw [if_neg hv]
      have hs1 : extendsS s
          { s with visited := s.visited ++ [p] } :=
        ⟨⟨[p], rfl⟩, ⟨[], by simp⟩, ⟨[], by simp⟩⟩
      cases hlk : lookupFS fs p with
      | none =>
        simp only [hlk]
        exact extendsS_trans hs1 ⟨⟨[], by simp⟩, ⟨[], by simp⟩, ⟨[errMsg p], rfl⟩⟩
      | some e =>
        cases e with
        | dir =>
          simp only [hlk]
          exact extendsS_trans hs1 (traceChildrenF_extends _ (fun r s => ih r s) p _ _)
        | file toks =>
          simp only [hlk]
          refine extendsS_trans hs1 ?_
          refine extendsS_trans (filesAdd_extends _ p) ?_
          by_cases hmd : mdPath p = true
          · rw [if_pos hmd]
            exact traceRefsF_extends _ (fun r s => ih r s) _ _
          · rw [if_neg hmd]
            exact extendsS_refl _

/-- Revisiting an already-visited path is a no-op on the state. -/
theorem traceStep_visited_noop (fs : FS) :
    ∀ fuel (p : FPath) (s : TraceState), p ∈ s.visited →
      traceStep fs fuel p s = s := by
  intro fuel p s h
  cases fuel with
  | zero => rfl
  | succ f => rw [traceStep, if_pos h]

/-! ### Trace walk lemmas: running invariants -/

theorem InvNE_files_set (fs : FS) (s : TraceState) (fl : List FPath)
    (h : InvNE fs s) : InvNE fs { s with files := fl } := h

theorem traceRefsF_InvNE (fs : FS) (tr : FPath → TraceState → TraceState)
    (htr : ∀ r s, InvNE fs s → InvNE fs (tr r s)) :
    ∀ rs s, InvNE fs s → InvNE fs (traceRefsF tr rs s)
  | [], _, h => h
  | r :: rest, s, h =>
    traceRefsF_InvNE fs tr htr rest (tr r s) (htr r s h)

theorem traceChildrenF_InvNE (fs : FS) (tr : FPath → TraceState → TraceState)
    (htr : ∀ r s, InvNE fs s → InvNE fs (tr r s)) (p : FPath) :
    ∀ entries s, InvNE fs s → InvNE fs (traceChildrenF tr p entries s)
  | [], _, h => h
  | (n, FsEntry.dir) :: rest, s, h =>
    traceChildrenF_InvNE fs tr htr p rest (tr (p ++ [n]) s) (htr _ s h)
  | (n, FsEntry.file toks) :: rest, s, h => by
    rw [traceChildrenF]
    dsimp only
    have h1 : InvNE fs { s with files := addOnce s.files (p ++ [n]) } := h
    by_cases hmd : mdName n = true
    · rw [if_pos hmd]
      exact traceChildrenF_InvNE fs tr htr p rest _
        (traceRefsF_InvNE fs tr htr _ _ h1)
    · rw [if_neg hmd]
      exact traceChildrenF_InvNE fs tr htr p rest _ h1

theorem traceStep_InvNE (fs : FS) :
    ∀ fuel p s, InvNE fs s → InvNE fs (traceStep fs fuel p s) := by
  intro fuel
  induction fuel with
  | zero => intro p s h; exact h
  | succ f ih =>
    intro p s h
    rw [traceStep]
    by_cases hv : p ∈ s.visited
    · rw [if_pos hv]; exact h
    · rw [if_neg hv]
      obtain ⟨hnd, herr⟩ := h
      have hnd1 : (s.visited ++ [p]).Nodup := by
        rw [List.nodup_append]
        exact ⟨hnd, List.nodup_singleton p, by simpa using hv⟩
      cases hlk : lookupFS fs p with
      | none =>
        simp only [hlk]
        refine ⟨hnd1, ?_⟩
        show s.errors ++ [errMsg p] =
          ((s.visited ++ [p]).filter (fun q => (lookupFS fs q).isNone)).map
            errMsg
        rw [List.filter_append, List.map_append, ← herr]
        have : [p].filter (fun q => (lookupFS fs q).isNone) = [p] := by
          simp [hlk]
        rw [this]
        simp
      | some e =>
        have hfil : (s.visited ++ [p]).filter
            (fun q => (lookupFS fs q).isNone) =
            s.visited.filter (fun q => (lookupFS fs q).isNone) := by
          rw [List.filter_append]
          have : [p].filter (fun q => (lookupFS fs q).isNone) = [] := by
            simp [hlk]
          rw [this, List.append_nil]
        have h1 : InvNE fs { s with visited := s.visited ++ [p] } := by
          refine ⟨hnd1, ?_⟩
          show s.errors = _
          rw [hfil, ← herr]
        cases e with
        | dir =>
          simp only [hlk]
          exact traceChildrenF_InvNE fs _ (fun r s => ih r s) p _ _ h1
        | file toks =>
          simp only [hlk]
          have h2 : InvNE fs
              { visited := s.visited ++ [p],
                files := addOnce s.files p, errors := s.errors } :=
            ⟨h1.1, h1.2⟩
          by_cases hmd : mdPath p = true
          · rw [if_pos hmd]
            exact traceRefsF_InvNE fs _ (fun r s => ih r s) _ _ h2
          · rw [if_neg hmd]
            exact h2

/-! ### Trace walk lemmas: the filesystem and the universe -/

theorem childEntries_mem_fs {fs : FS} {p : FPath} {n : String} {e : FsEntry}
    (h : (n, e) ∈ childEntries fs p) : (p ++ [n], e) ∈ fs := by
  unfold childEntries at h
  rw [List.mem_filterMap] at h
  obtain ⟨a, ha, hcond⟩ := h
  split at hcond
  case isTrue hc =>
    rw [Option.map_eq_some'] at hcond
    obtain ⟨m, hm, hme⟩ := hcond
    have h1 : m = n := congrArg (fun x => x.1) hme
    have h2 : a.2 = e := congrArg (fun x => x.2) hme
    have h3 : a.1.dropLast ++ [m] = a.1 :=
      List.dropLast_append_getLast? m hm
    have h4 : a.1 = p ++ [n] := by
      rw [← h3, hc.1, h1]
    have : a = (p ++ [n], e) := by
      rw [Prod.ext_iff]
      exact ⟨h4, h2⟩
    rw [← this]
    exact ha
  case isFalse => exact absurd hcond (by simp)

theorem childEntries_complete {fs : FS} {c : FPath} {e : FsEntry}
    (hmem : (c, e) ∈ fs) (hne : c ≠ []) :
    ∃ n, c = c.dropLast ++ [n] ∧ (n, e) ∈ childEntries fs c.dropLast := by
  refine ⟨c.getLast hne, (List.dropLast_append_getLast hne).symm, ?_⟩
  unfold childEntries
  rw [List.mem_filterMap]
  refine ⟨(c, e), hmem, ?_⟩
  rw [if_pos ⟨rfl, hne⟩]
  rw [List.getLast?_eq_getLast c hne]
  rfl

theorem lookupFS_mem {fs : FS} {p : FPath} {e : FsEntry}
    (h : lookupFS fs p = some e) : (p, e) ∈ fs := by
  unfold lookupFS at h
  rw [Option.map_eq_some'] at h
  obtain ⟨a, hfind, he⟩ := h
  have hmem := List.mem_of_find?_eq_some hfind
  have hp : a.1 = p := by
    have := List.find?_some hfind
    simpa using this
  have : a = (p, e) := by
    rw [Prod.ext_iff]
    exact ⟨hp, he⟩
  rw [← this]
  exact hmem

theorem lookupFS_of_mem {fs : FS} (hwf : (fs.map (fun e => e.1)).Nodup)
    {p : FPath} {e : FsEntry} (hmem : (p, e) ∈ fs) :
    lookupFS fs p = some e := by
  induction fs with
  | nil => exact absurd hmem (List.not_mem_nil _)
  | cons a rest ih =>
    rw [List.map_cons, List.nodup_cons] at hwf
    rcases List.mem_cons.mp hmem with hm | hm
    · rw [← hm]
      unfold lookupFS
      rw [List.find?_cons_of_pos _ (by simp)]
      rfl
    · have hne : ¬ (a.1 = p) := by
        intro he
        exact hwf.1 (List.mem_map.mpr ⟨(p, e), hm, he.symm⟩)
      unfold lookupFS
      rw [List.find?_cons_of_neg _ (by simpa using hne)]
      exact ih hwf.2 hm

theorem childEntries_lookup {fs : FS}
    (hwf : (fs.map (fun e => e.1)).Nodup) {p : FPath} {n : String}
    {e : FsEntry} (h : (n, e) ∈ childEntries fs p) :
    lookupFS fs (p ++ [n]) = some e :=
  lookupFS_of_mem hwf (childEntries_mem_fs h)

theorem root_mem_traceUniverse (fs : FS) (root : FPath) :
    root ∈ traceUniverse fs root := by
  unfold traceUniverse
  exact List.mem_cons_self _ _

theorem key_mem_traceUniverse {fs : FS} (root : FPath) {q : FPath}
    {e : FsEntry} (h : (q, e) ∈ fs) : q ∈ traceUniverse fs root := by
  unfold traceUniverse
  refine List.mem_cons_of_mem _ (List.mem_append_left _ ?_)
  exact List.mem_map.mpr ⟨(q, e), h, rfl⟩

theorem refs_mem_traceUniverse {fs : FS} (root : FPath) {q : FPath}
    {toks : List MToken} (h : (q, FsEntry.file toks) ∈ fs) {r : FPath}
    (hr : r ∈ extractReferences toks q.dropLast) :
    r ∈ traceUniverse fs root := by
  unfold traceUniverse
  refine List.mem_cons_of_mem _ (List.mem_append_right _ ?_)
  rw [List.mem_flatMap]
  exact ⟨(q, FsEntry.file toks), h, hr⟩

theorem succs_subset_traceUniverse (fs : FS) (root p : FPath) :
    ∀ r ∈ succs fs p, r ∈ traceUniverse fs root := by
  intro r hr
  unfold succs at hr
  split at hr
  · exact absurd hr (List.not_mem_nil r)
  case h_2 toks hlk =>
    split at hr
    · exact refs_mem_traceUniverse root (lookupFS_mem hlk) hr
    · exact absurd hr (List.not_mem_nil r)
  case h_3 hlk =>
    rw [List.mem_flatMap] at hr
    obtain ⟨ce, hce, hin⟩ := hr
    obtain ⟨n, e⟩ := ce
    cases e with
    | dir =>
      dsimp only at hin
      simp only [List.mem_singleton] at hin
      rw [hin]
      exact key_mem_traceUniverse root (childEntries_mem_fs hce)
    | file toks =>
      dsimp only at hin
      split at hin
      · have hmem : (p ++ [n], FsEntry.file toks) ∈ fs :=
          childEntries_mem_fs hce
        have hdl : (p ++ [n]).dropLast = p := by
          rw [List.dropLast_concat]
        refine refs_mem_traceUniverse root hmem ?_
        rw [hdl]
        exact hin
      · exact absurd hin (List.not_mem_nil r)

theorem traceRefsF_subU (U : List FPath)
    (tr : FPath → TraceState → TraceState)
    (htr : ∀ r s, r ∈ U → s.visited ⊆ U → (tr r s).visited ⊆ U) :
    ∀ rs s, (∀ r ∈ rs, r ∈ U) → s.visited ⊆ U →
      (traceRefsF tr rs s).visited ⊆ U
  | [], _, _, hs => hs
  | r :: rest, s, hrs, hs =>
    traceRefsF_subU U tr htr rest (tr r s)
      (fun x hx => hrs x (List.mem_cons_of_mem r hx))
      (htr r s (hrs r (List.mem_cons_self _ _)) hs)

theorem traceChildrenF_subU (fs : FS) (root : FPath)
    (tr : FPath → TraceState → TraceState)
    (htr : ∀ r s, r ∈ traceUniverse fs root →
      s.visited ⊆ traceUniverse fs root →
      (tr r s).visited ⊆ traceUniverse fs root) (p : FPath) :
    ∀ entries s, (∀ ce ∈ entries, ce ∈ childEntries fs p) →
      s.visited ⊆ traceUniverse fs root →
      (traceChildrenF tr p entries s).visited ⊆ traceUniverse fs root
  | [], _, _, hs => hs
  | (n, FsEntry.dir) :: rest, s, hent, hs =>
    traceChildrenF_subU fs root tr htr p rest (tr (p ++ [n]) s)
      (fun ce hce => hent ce (List.mem_cons_of_mem _ hce))
      (htr (p ++ [n]) s
        (key_mem_traceUniverse root
          (childEntries_mem_fs (hent _ (List.mem_cons_self _ _))))
        hs)
  | (n, FsEntry.file toks) :: rest, s, hent, hs => by
    rw [traceChildrenF]
    dsimp only
    have hrest : ∀ ce ∈ rest, ce ∈ childEntries fs p :=
      fun ce hce => hent ce (List.mem_cons_of_mem _ hce)
    have hs1 : (({ s with files := addOnce s.files (p ++ [n]) } :
        TraceState)).visited ⊆ traceUniverse fs root := hs
    by_cases hmd : mdName n = true
    · rw [if_pos hmd]
      refine traceChildrenF_subU fs root tr htr p rest _ hrest ?_
      refine traceRefsF_subU (traceUniverse fs root) tr htr _ _ ?_ hs1
      intro r hrr
      have hmem : (p ++ [n], FsEntry.file toks) ∈ fs :=
        childEntries_mem_fs (hent _ (List.mem_cons_self _ _))
      refine refs_mem_traceUniverse root hmem ?_
      rw [List.dropLast_concat]
      exact hrr
    · rw [if_neg hmd]
      exact traceChildrenF_subU fs root tr htr p rest _ hrest hs1

theorem traceStep_subU (fs : FS) (root : FPath) :
    ∀ fuel (p : FPath) (s : TraceState), p ∈ traceUniverse fs root →
      s.visited ⊆ traceUniverse fs root →
      (traceStep fs fuel p s).visited ⊆ traceUniverse fs root := by
  intro fuel
  induction fuel with
  | zero => intro p s _ hs; exact hs
  | succ f ih =>
    intro p s hp hs
    rw [traceStep]
    by_cases hv : p ∈ s.visited
    · rw [if_pos hv]; exact hs
    · rw [if_neg hv]
      have hs1 : (s.visited ++ [p]) ⊆ traceUniverse fs root := by
        intro x hx
        rcases List.mem_append.mp hx with hx | hx
        · exact hs hx
        · rw [List.mem_singleton.mp hx]; exact hp
      cases hlk : lookupFS fs p with
      | none =>
        simp only [hlk]
        exact hs1
      | some e =>
        cases e with
        | dir =>
          simp only [hlk]
          exact traceChildrenF_subU fs root _ (fun r s hr hs => ih r s hr hs)
            p _ _ (fun ce hce => hce) hs1
        | file toks =>
          simp only [hlk]
          by_cases hmd : mdPath p = true
          · rw [if_pos hmd]
            refine traceRefsF_subU (traceUniverse fs root) _
              (fun r s hr hs => ih r s hr hs) _ _ ?_ hs1
            intro r hrr
            exact refs_mem_traceUniverse root (lookupFS_mem hlk) hrr
          · rw [if_neg hmd]
            exact hs1

/-! ### Trace walk lemmas: fuel stability -/

theorem visited_le_universe (fs : FS) (root : FPath) (s : TraceState)
    (h1 : s.visited.Nodup) (h2 : s.visited ⊆ traceUniverse fs root) :
    s.visited.length ≤ (traceUniverse fs root).length :=
  (h1.subperm h2).length_le

theorem InvNE_push (fs : FS) (s : TraceState) (p : FPath) (fl : List FPath)
    (h : InvNE fs s) (hv : p ∉ s.visited)
    (hlk : (lookupFS fs p).isNone = false) :
    InvNE fs { visited := s.visited ++ [p], files := fl,
               errors := s.errors } := by
  obtain ⟨hnd, herr⟩ := h
  constructor
  · rw [List.nodup_append]
    exact ⟨hnd, List.nodup_singleton p, by simpa using hv⟩
  · show s.errors = _
    rw [List.filter_append]
    have : [p].filter (fun q => (lookupFS fs q).isNone) = [] := by
      simp [hlk]
    rw [this, List.append_nil]
    exact herr

theorem CondF_files_set (fs : FS) (root : FPath) (f : Nat) (s : TraceState)
    (fl : List FPath) (h : CondF fs root f s) :
    CondF fs root f { s with files := fl } :=
  ⟨⟨h.1.1, h.1.2⟩, h.2.1, h.2.2⟩

theorem CondF_step_preserve (fs : FS) (root : FPath) (f : Nat) :
    ∀ (r : FPath) (s : TraceState), CondF fs root f s →
      r ∈ traceUniverse fs root → CondF fs root f (traceStep fs f r s) := by
  intro r s h hr
  refine ⟨traceStep_InvNE fs f r s h.1, traceStep_subU fs root f r s hr h.2.1, ?_⟩
  have hlen := extendsS_visited_length (traceStep_extends fs f r s)
  have := h.2.2
  omega

theorem traceRefsF_CondF (fs : FS) (root : FPath) (f : Nat) :
    ∀ rs (s : TraceState), CondF fs root f s →
      (∀ r ∈ rs, r ∈ traceUniverse fs root) →
      CondF fs root f (traceRefsF (traceStep fs f) rs s)
  | [], _, h, _ => h
  | r :: rest, s, h, hrs =>
    traceRefsF_CondF fs root f rest _
      (CondF_step_preserve fs root f r s h (hrs r (List.mem_cons_self _ _)))
      (fun x hx => hrs x (List.mem_cons_of_mem r hx))

theorem traceRefsF_congr (fs : FS) (root : FPath) (f : Nat)
    (h1 : ∀ (r : FPath) (s : TraceState), CondF fs root f s →
      r ∈ traceUniverse fs root →
      traceStep fs f r s = traceStep fs (f + 1) r s) :
    ∀ rs (s : TraceState), CondF fs root f s →
      (∀ r ∈ rs, r ∈ traceUniverse fs root) →
      traceRefsF (traceStep fs f) rs s =
        traceRefsF (traceStep fs (f + 1)) rs s
  | [], _, _, _ => rfl
  | r :: rest, s, h, hrs => by
    rw [traceRefsF, traceRefsF]
    have hhead := h1 r s h (hrs r (List.mem_cons_self _ _))
    rw [← hhead]
    exact traceRefsF_congr fs root f h1 rest _
      (CondF_step_preserve fs root f r s h (hrs r (List.mem_cons_self _ _)))
      (fun x hx => hrs x (List.mem_cons_of_mem r hx))

theorem traceChildrenF_CondF (fs : FS) (root : FPath) (f : Nat) (p : FPath) :
    ∀ entries (s : TraceState), CondF fs root f s →
      (∀ ce ∈ entries, ce ∈ childEntries fs p) →
      CondF fs root f (traceChildrenF (traceStep fs f) p entries s)
  | [], _, h, _ => h
  | (n, FsEntry.dir) :: rest, s, h, hent =>
    traceChildrenF_CondF fs root f p rest _
      (CondF_step_preserve fs root f (p ++ [n]) s h
        (key_mem_traceUniverse root
          (childEntries_mem_fs (hent _ (List.mem_cons_self _ _)))))
      (fun ce hce => hent ce (List.mem_cons_of_mem _ hce))
  | (n, FsEntry.file toks) :: rest, s, h, hent => by
    rw [traceChildrenF]
    dsimp only
    have h1 : CondF fs root f
        { s with files := addOnce s.files (p ++ [n]) } :=
      CondF_files_set fs root f s _ h
    have hrest : ∀ ce ∈ rest, ce ∈ childEntries fs p :=
      fun ce hce => hent ce (List.mem_cons_of_mem _ hce)
    by_cases hmd : mdName n = true
    · rw [if_pos hmd]
      refine traceChildrenF_CondF fs root f p rest _ ?_ hrest
      refine traceRefsF_CondF fs root f _ _ h1 ?_
      intro r hrr
      have hmem : (p ++ [n], FsEntry.file toks) ∈ fs :=
        childEntries_mem_fs (hent _ (List.mem_cons_self _ _))
      refine refs_mem_traceUniverse root hmem ?_
      rw [List.dropLast_concat]
      exact hrr
    · rw [if_neg hmd]
      exact traceChildrenF_CondF fs root f p rest _ h1 hrest

theorem traceChildrenF_congr (fs : FS) (root : FPath) (f : Nat) (p : FPath)
    (h1 : ∀ (r : FPath) (s : TraceState), CondF fs root f s →
      r ∈ traceUniverse fs root →
      traceStep fs f r s = traceStep fs (f + 1) r s) :
    ∀ entries (s : TraceState), CondF fs root f s →
      (∀ ce ∈ entries, ce ∈ childEntries fs p) →
      traceChildrenF (traceStep fs f) p entries s =
        traceChildrenF (traceStep fs (f + 1)) p entries s
  | [], _, _, _ => rfl
  | (n, FsEntry.dir) :: rest, s, h, hent => by
    rw [traceChildrenF, traceChildrenF]
    have hnU : (p ++ [n]) ∈ traceUniverse fs root :=
      key_mem_traceUniverse root
        (childEntries_mem_fs (hent _ (List.mem_cons_self _ _)))
    have hhead := h1 (p ++ [n]) s h hnU
    rw [← hhead]
    exact traceChildrenF_congr fs root f p h1 rest _
      (CondF_step_preserve fs root f (p ++ [n]) s h hnU)
      (fun ce hce => hent ce (List.mem_cons_of_mem _ hce))
  | (n, FsEntry.file toks) :: rest, s, h, hent => by
    rw [traceChildrenF, traceChildrenF]
    dsimp only
    have h1f : CondF fs root f
        { s with files := addOnce s.files (p ++ [n]) } :=
      CondF_files_set fs root f s _ h
    have hrest : ∀ ce ∈ rest, ce ∈ childEntries fs p :=
      fun ce hce => hent ce (List.mem_cons_of_mem _ hce)
    by_cases hmd : mdName n = true
    · rw [if_pos hmd, if_pos hmd]
      have hrefsU : ∀ r ∈ extractReferences toks p,
          r ∈ traceUniverse fs root := by
        intro r hrr
        have hmem : (p ++ [n], FsEntry.file toks) ∈ fs :=
          childEntries_mem_fs (hent _ (List.mem_cons_self _ _))
        refine refs_mem_traceUniverse root hmem ?_
        rw [List.dropLast_concat]
        exact hrr
      rw [← traceRefsF_congr fs root f h1 _ _ h1f hrefsU]
      exact traceChildrenF_congr fs root f p h1 rest _
        (traceRefsF_CondF fs root f _ _ h1f hrefsU) hrest
    · rw [if_neg hmd, if_neg hmd]
      exact traceChildrenF_congr fs root f p h1 rest _ h1f hrest

theorem traceStep_fuel_succ (fs : FS) (root : FPath) :
    ∀ f (p : FPath) (s : TraceState), CondF fs root f s →
      p ∈ traceUniverse fs root →
      traceStep fs f p s = traceStep fs (f + 1) p s := by
  intro f
  induction f with
  | zero =>
    intro p s h _
    exfalso
    have hle := visited_le_universe fs root s h.1.1 h.2.1
    have := h.2.2
    omega
  | succ f ih =>
    intro p s h hp
    rw [traceStep]
    conv_rhs => rw [traceStep]
    by_cases hv : p ∈ s.visited
    · rw [if_pos hv, if_pos hv]
    · rw [if_neg hv, if_neg hv]
      have hs1sub : (s.visited ++ [p]) ⊆ traceUniverse fs root := by
        intro x hx
        rcases List.mem_append.mp hx with hx | hx
        · exact h.2.1 hx
        · rw [List.mem_singleton.mp hx]; exact hp
      have havail : (traceUniverse fs root).length + 1 -
          (s.visited ++ [p]).length ≤ f := by
        have := h.2.2
        rw [List.length_append]
        simp only [List.length_singleton]
        omega
      cases hlk : lookupFS fs p with
      | none => simp only [hlk]
      | some e =>
        have hcond1 : ∀ fl, CondF fs root f
            { visited := s.visited ++ [p], files := fl,
              errors := s.errors } := by
          intro fl
          refine ⟨InvNE_push fs s p fl h.1 hv (by rw [hlk]; rfl), hs1sub, havail⟩
        cases e with
        | dir =>
          simp only [hlk]
          exact traceChildrenF_congr fs root f p (fun r s hc hr => ih r s hc hr)
            _ _ (hcond1 s.files) (fun ce hce => hce)
        | file toks =>
          simp only [hlk]
          by_cases hmd : mdPath p = true
          · rw [if_pos hmd, if_pos hmd]
            refine traceRefsF_congr fs root f (fun r s hc hr => ih r s hc hr)
              _ _ (hcond1 _) ?_
            intro r hrr
            exact refs_mem_traceUniverse root (lookupFS_mem hlk) hrr
          · rw [if_neg hmd, if_neg hmd]

theorem traceStep_fuel_ge (fs : FS) (root : FPath) (f g : Nat) (hfg : f ≤ g) :
    ∀ (p : FPath) (s : TraceState), CondF fs root f s →
      p ∈ traceUniverse fs root →
      traceStep fs f p s = traceStep fs g p s := by
  induction g, hfg using Nat.le_induction with
  | base => intro p s _ _; rfl
  | succ g hfg ih =>
    intro p s h hp
    rw [ih p s h hp]
    refine traceStep_fuel_succ fs root g p s ⟨h.1, h.2.1, ?_⟩ hp
    have := h.2.2
    omega

/-! ### Trace walk lemmas: closedness of the visited set -/

theorem ClosedNew_self (fs : FS) (s : TraceState) : ClosedNew fs s s :=
  fun _ hq hqs => absurd hq (fun h => hqs h)

theorem ClosedNew_compose {fs : FS} {s t u : TraceState}
    (h1 : ClosedNew fs s t) (h2 : ClosedNew fs t u) (hext : extendsS t u) :
    ClosedNew fs s u := by
  intro q hq hqs
  by_cases hqt : q ∈ t.visited
  · obtain ⟨ha, hb, hc⟩ := h1 q hqt hqs
    exact ⟨fun r hr => extendsS_mem_visited hext (ha r hr),
      fun hf => extendsS_mem_files hext (hb hf),
      fun c hc1 hc2 hc3 hc4 => extendsS_mem_files hext (hc c hc1 hc2 hc3 hc4)⟩
  · exact h2 q hq hqt

theorem isFileB_iff (fs : FS) (c : FPath) :
    isFileB fs c = true ↔
      ∃ toks, lookupFS fs c = some (FsEntry.file toks) := by
  unfold isFileB
  split
  case h_1 toks heq => simp [heq]
  case h_2 heq =>
    constructor
    · intro h; exact absurd h (by simp)
    · intro ⟨toks, htoks⟩
      exact absurd htoks (heq _)

theorem succs_dir_cases {fs : FS} {p : FPath}
    (hlk : lookupFS fs p = some FsEntry.dir) {r : FPath}
    (hr : r ∈ succs fs p) :
    ∃ ce ∈ childEntries fs p,
      (ce.2 = FsEntry.dir ∧ r = p ++ [ce.1]) ∨
      (∃ toks, ce.2 = FsEntry.file toks ∧ mdName ce.1 = true ∧
        r ∈ extractReferences toks p) := by
  unfold succs at hr
  rw [hlk] at hr
  simp only [] at hr
  rw [List.mem_flatMap] at hr
  obtain ⟨ce, hce, hin⟩ := hr
  obtain ⟨n, e⟩ := ce
  refine ⟨(n, e), hce, ?_⟩
  cases e with
  | dir =>
    dsimp only at hin
    simp only [List.mem_singleton] at hin
    exact Or.inl ⟨rfl, hin⟩
  | file toks =>
    dsimp only at hin
    split at hin
    case isTrue hmd => exact Or.inr ⟨toks, rfl, hmd, hin⟩
    case isFalse => exact absurd hin (List.not_mem_nil r)

theorem succs_file_md {fs : FS} {p : FPath} {toks : List MToken}
    (hlk : lookupFS fs p = some (FsEntry.file toks))
    (hmd : mdPath p = true) :
    succs fs p = extractReferences toks p.dropLast := by
  unfold succs
  rw [hlk]
  simp only [if_pos hmd]

theorem succs_file_nonmd {fs : FS} {p : FPath} {toks : List MToken}
    (hlk : lookupFS fs p = some (FsEntry.file toks))
    (hmd : ¬ mdPath p = true) :
    succs fs p = [] := by
  unfold succs
  rw [hlk]
  simp only [if_neg hmd]

theorem succs_missing {fs : FS} {p : FPath} (hlk : lookupFS fs p = none) :
    succs fs p = [] := by
  unfold succs
  rw [hlk]

theorem traceRefsF_Closed (fs : FS) (root : FPath) (f : Nat)
    (hclo : ∀ (r : FPath) (s : TraceState), CondF fs root f s →
      r ∈ traceUniverse fs root →
      ClosedNew fs s (traceStep fs f r s) ∧
      r ∈ (traceStep fs f r s).visited) :
    ∀ rs (s : TraceState), CondF fs root f s →
      (∀ r ∈ rs, r ∈ traceUniverse fs root) →
      ClosedNew fs s (traceRefsF (traceStep fs f) rs s) ∧
      (∀ r ∈ rs, r ∈ (traceRefsF (traceStep fs f) rs s).visited)
  | [], s, _, _ => ⟨ClosedNew_self fs s, fun r hr => absurd hr (by simp)⟩
  | r :: rest, s, h, hrs => by
    rw [traceRefsF]
    have hrU := hrs r (List.mem_cons_self _ _)
    have hhead := hclo r s h hrU
    have hcond := CondF_step_preserve fs root f r s h hrU
    have hrest := traceRefsF_Closed fs root f hclo rest (traceStep fs f r s)
      hcond (fun x hx => hrs x (List.mem_cons_of_mem r hx))
    have hext : extendsS (traceStep fs f r s)
        (traceRefsF (traceStep fs f) rest (traceStep fs f r s)) :=
      traceRefsF_extends _ (fun a b => traceStep_extends fs f a b) rest _
    refine ⟨ClosedNew_compose hhead.1 hrest.1 hext, ?_⟩
    intro x hx
    rcases List.mem_cons.mp hx with hx | hx
    · rw [hx]
      exact extendsS_mem_visited hext hhead.2
    · exact hrest.2 x hx

theorem traceChildrenF_Closed (fs : FS) (root : FPath) (f : Nat) (p : FPath)
    (hclo : ∀ (r : FPath) (s : TraceState), CondF fs root f s →
      r ∈ traceUniverse fs root →
      ClosedNew fs s (traceStep fs f r s) ∧
      r ∈ (traceStep fs f r s).visited) :
    ∀ entries (s : TraceState), CondF fs root f s →
      (∀ ce ∈ entries, ce ∈ childEntries fs p) →
      ClosedNew fs s (traceChildrenF (traceStep fs f) p entries s) ∧
      (∀ ce ∈ entries,
        (ce.2 = FsEntry.dir →
          p ++ [ce.1] ∈ (traceChildrenF (traceStep fs f) p entries s).visited) ∧
        (∀ toks, ce.2 = FsEntry.file toks →
          p ++ [ce.1] ∈ (traceChildrenF (traceStep fs f) p entries s).files ∧
          (mdName ce.1 = true → ∀ r ∈ extractReferences toks p,
            r ∈ (traceChildrenF (traceStep fs f) p entries s).visited)))
  | [], s, _, _ =>
    ⟨ClosedNew_self fs s, fun ce hce => absurd hce (by simp)⟩
  | (n, FsEntry.dir) :: rest, s, h, hent => by
    rw [traceChildrenF]
    have hnU : (p ++ [n]) ∈ traceUniverse fs root :=
      key_mem_traceUniverse root
        (childEntries_mem_fs (hent _ (List.mem_cons_self _ _)))
    have hhead := hclo (p ++ [n]) s h hnU
    have hcond := CondF_step_preserve fs root f (p ++ [n]) s h hnU
    have hrest := traceChildrenF_Closed fs root f p hclo rest _ hcond
      (fun ce hce => hent ce (List.mem_cons_of_mem _ hce))
    have hext : extendsS (traceStep fs f (p ++ [n]) s)
        (traceChildrenF (traceStep fs f) p rest (traceStep fs f (p ++ [n]) s)) :=
      traceChildrenF_extends _ (fun a b => traceStep_extends fs f a b) p rest _
    refine ⟨ClosedNew_compose hhead.1 hrest.1 hext, ?_⟩
    intro ce hce
    rcases List.mem_cons.mp hce with hc | hc
    · rw [hc]
      constructor
      · intro _
        exact extendsS_mem_visited hext hhead.2
      · intro toks htoks
        exact absurd htoks (by simp)
    · exact hrest.2 ce hc
  | (n, FsEntry.file toks0) :: rest, s, h, hent => by
    rw [traceChildrenF]
    dsimp only
    have hmem : (p ++ [n], FsEntry.file toks0) ∈ fs :=
      childEntries_mem_fs (hent _ (List.mem_cons_self _ _))
    have h1 : CondF fs root f
        { s with files := addOnce s.files (p ++ [n]) } :=
      CondF_files_set fs root f s _ h
    have hs1add : p ++ [n] ∈
        ({ s with files := addOnce s.files (p ++ [n]) } :
          TraceState).files :=
      mem_addOnce_self s.files (p ++ [n])
    have hs1ext : extendsS s { s with files := addOnce s.files (p ++ [n]) } :=
      filesAdd_extends s (p ++ [n])
    have hrest : ∀ ce ∈ rest, ce ∈ childEntries fs p :=
      fun ce hce => hent ce (List.mem_cons_of_mem _ hce)
    by_cases hmd : mdName n = true
    · rw [if_pos hmd]
      have hrefsU : ∀ r ∈ extractReferences toks0 p,
          r ∈ traceUniverse fs root := by
        intro r hrr
        refine refs_mem_traceUniverse root hmem ?_
        rw [List.dropLast_concat]
        exact hrr
      have hR := traceRefsF_Closed fs root f hclo (extractReferences toks0 p)
        _ h1 hrefsU
      have hRcond := traceRefsF_CondF fs root f (extractReferences toks0 p)
        _ h1 hrefsU
      have hRext : extendsS { s with files := addOnce s.files (p ++ [n]) }
          (traceRefsF (traceStep fs f) (extractReferences toks0 p)
            { s with files := addOnce s.files (p ++ [n]) }) :=
        traceRefsF_extends _ (fun a b => traceStep_extends fs f a b) _ _
      have hrec := traceChildrenF_Closed fs root f p hclo rest _ hRcond hrest
      have hrecext : extendsS
          (traceRefsF (traceStep fs f) (extractReferences toks0 p)
            { s with files := addOnce s.files (p ++ [n]) })
          (traceChildrenF (traceStep fs f) p rest
            (traceRefsF (traceStep fs f) (extractReferences toks0 p)
              { s with files := addOnce s.files (p ++ [n]) })) :=
        traceChildrenF_extends _ (fun a b => traceStep_extends fs f a b) p
          rest _
      refine ⟨?_, ?_⟩
      · refine ClosedNew_compose (ClosedNew_compose ?_ hR.1 hRext) hrec.1
          hrecext
        intro q hq hqs
        exact absurd hq hqs
      · intro ce hce
        rcases List.mem_cons.mp hce with hc | hc
        · rw [hc]
          constructor
          · intro hd
            exact absurd hd (by simp)
          · intro toks htoks
            dsimp only at htoks
            have htoks2 : toks = toks0 := FsEntry.file.inj htoks.symm
            constructor
            · exact extendsS_mem_files hrecext
                (extendsS_mem_files hRext hs1add)
            · intro _ r hrr
              rw [htoks2] at hrr
              exact extendsS_mem_visited hrecext (hR.2 r hrr)
        · exact hrec.2 ce hc
    · rw [if_neg hmd]
      have hrec := traceChildrenF_Closed fs root f p hclo rest _ h1 hrest
      have hrecext : extendsS { s with files := addOnce s.files (p ++ [n]) }
          (traceChildrenF (traceStep fs f) p rest
            { s with files := addOnce s.files (p ++ [n]) }) :=
        traceChildrenF_extends _ (fun a b => traceStep_extends fs f a b) p
          rest _
      refine ⟨?_, ?_⟩
      · refine ClosedNew_compose ?_ hrec.1 hrecext
        intro q hq hqs
        exact absurd hq hqs
      · intro ce hce
        rcases List.mem_cons.mp hce with hc | hc
        · rw [hc]
          constructor
          · intro hd
            exact absurd hd (by simp)
          · intro toks htoks
            constructor
            · exact extendsS_mem_files hrecext hs1add
            · intro hmd2
              dsimp only at hmd2
              exact absurd hmd2 hmd
        · exact hrec.2 ce hc

theorem traceStep_Closed (fs : FS) (root : FPath) :
    ∀ f (p : FPath) (s : TraceState), CondF fs root f s →
      p ∈ traceUniverse fs root →
      ClosedNew fs s (traceStep fs f p s) ∧
      p ∈ (traceStep fs f p s).visited := by
  intro f
  induction f with
  | zero =>
    intro p s h _
    exfalso
    have hle := visited_le_universe fs root s h.1.1 h.2.1
    have := h.2.2
    omega
  | succ f ih =>
    intro p s h hp
    rw [traceStep]
    by_cases hv : p ∈ s.visited
    · rw [if_pos hv]
      exact ⟨ClosedNew_self fs s, hv⟩
    · rw [if_neg hv]
      have hpmem1 : p ∈ (s.visited ++ [p]) := by simp
      have hs1sub : (s.visited ++ [p]) ⊆ traceUniverse fs root := by
        intro x hx
        rcases List.mem_append.mp hx with hx | hx
        · exact h.2.1 hx
        · rw [List.mem_singleton.mp hx]; exact hp
      have havail : (traceUniverse fs root).length + 1 -
          (s.visited ++ [p]).length ≤ f := by
        have := h.2.2
        rw [List.length_append]
        simp only [List.length_singleton]
        omega
      cases hlk : lookupFS fs p with
      | none =>
        simp only [hlk]
        constructor
        · intro q hq hqs
          have hq2 : q = p := by
            rcases List.mem_append.mp hq with hx | hx
            · exact absurd hx hqs
            · simpa using hx
          subst hq2
          refine ⟨?_, ?_, ?_⟩
          · rw [succs_missing hlk]
            intro r hr
            exact absurd hr (List.not_mem_nil r)
          · intro hf
            rw [isFileB_iff] at hf
            obtain ⟨toks, htoks⟩ := hf
            rw [hlk] at htoks
            exact absurd htoks (by simp)
          · intro c _ _ hdir _
            rw [hlk] at hdir
            exact absurd hdir (by simp)
        · exact hpmem1
      | some e =>
        have hcond1 : ∀ fl, CondF fs root f
            { visited := s.visited ++ [p], files := fl,
              errors := s.errors } := by
          intro fl
          exact ⟨InvNE_push fs s p fl h.1 hv (by rw [hlk]; rfl), hs1sub,
            havail⟩
        cases e with
        | dir =>
          simp only [hlk]
          have hC := traceChildrenF_Closed fs root f p
            (fun r s hc hr => ih r s hc hr) (childEntries fs p)
            { visited := s.visited ++ [p], files := s.files,
              errors := s.errors }
            (hcond1 s.files) (fun ce hce => hce)
          have hCext : extendsS
              { visited := s.visited ++ [p], files := s.files,
                errors := s.errors }
              (traceChildrenF (traceStep fs f) p (childEntries fs p)
                { visited := s.visited ++ [p], files := s.files,
                  errors := s.errors }) :=
            traceChildrenF_extends _ (fun a b => traceStep_extends fs f a b)
              p _ _
          constructor
          · intro q hq hqs
            by_cases hqp : q = p
            · subst hqp
              refine ⟨?_, ?_, ?_⟩
              · intro r hr
                obtain ⟨ce, hce, hcase⟩ := succs_dir_cases hlk hr
                rcases hcase with ⟨hdir, hre⟩ | ⟨toks, hfile, hmd, hrin⟩
                · rw [hre]
                  exact (hC.2 ce hce).1 hdir
                · exact ((hC.2 ce hce).2 toks hfile).2 hmd r hrin
              · intro hf
                rw [isFileB_iff] at hf
                obtain ⟨toks, htoks⟩ := hf
                rw [hlk] at htoks
                exact absurd htoks (by simp)
              · intro c hcne hcdl hdir hcfile
                rw [isFileB_iff] at hcfile
                obtain ⟨toks, htoks⟩ := hcfile
                have hcmem := lookupFS_mem htoks
                obtain ⟨n, hceq, hchild⟩ := childEntries_complete hcmem hcne
                rw [hcdl] at hceq hchild
                have := ((hC.2 (n, FsEntry.file toks) hchild).2 toks rfl).1
                rw [hceq]
                exact this
            · have hq1 : q ∉ (s.visited ++ [p]) := by
                intro hcon
                rcases List.mem_append.mp hcon with hx | hx
                · exact hqs hx
                · exact hqp (by simpa using hx)
              exact hC.1 q hq hq1
          · exact extendsS_mem_visited hCext hpmem1
        | file toks =>
          simp only [hlk]
          by_cases hmd : mdPath p = true
          · rw [if_pos hmd]
            have hrefsU : ∀ r ∈ extractReferences toks p.dropLast,
                r ∈ traceUniverse fs root := by
              intro r hrr
              exact refs_mem_traceUniverse root (lookupFS_mem hlk) hrr
            have hR := traceRefsF_Closed fs root f
              (fun r s hc hr => ih r s hc hr)
              (extractReferences toks p.dropLast)
              { visited := s.visited ++ [p],
                files := addOnce s.files p, errors := s.errors }
              (hcond1 _) hrefsU
            have hRext : extendsS
                { visited := s.visited ++ [p],
                  files := addOnce s.files p, errors := s.errors }
                (traceRefsF (traceStep fs f)
                  (extractReferences toks p.dropLast)
                  { visited := s.visited ++ [p],
                    files := addOnce s.files p, errors := s.errors }) :=
              traceRefsF_extends _ (fun a b => traceStep_extends fs f a b)
                _ _
            constructor
            · intro q hq hqs
              by_cases hqp : q = p
              · subst hqp
                refine ⟨?_, ?_, ?_⟩
                · rw [succs_file_md hlk hmd]
                  exact hR.2
                · intro _
                  exact extendsS_mem_files hRext (mem_addOnce_self s.files q)
                · intro c _ _ hdir _
                  rw [hlk] at hdir
                  exact absurd hdir (by simp)
              · have hq1 : q ∉ (s.visited ++ [p]) := by
                  intro hcon
                  rcases List.mem_append.mp hcon with hx | hx
                  · exact hqs hx
                  · exact hqp (by simpa using hx)
                exact hR.1 q hq hq1
            · exact extendsS_mem_visited hRext hpmem1
          · rw [if_neg hmd]
            constructor
            · intro q hq hqs
              have hq2 : q = p := by
                rcases List.mem_append.mp hq with hx | hx
                · exact absurd hx hqs
                · simpa using hx
              subst hq2
              refine ⟨?_, ?_, ?_⟩
              · rw [succs_file_nonmd hlk hmd]
                intro r hr
                exact absurd hr (List.not_mem_nil r)
              · intro _
                exact mem_addOnce_self s.files q
              · intro c _ _ hdir _
                rw [hlk] at hdir
                exact absurd hdir (by simp)
            · exact hpmem1

/-! ### Trace walk lemmas: soundness -/

theorem mem_addOnce_elim {l : List FPath} {p x : FPath}
    (h : x ∈ addOnce l p) : x ∈ l ∨ x = p := by
  unfold addOnce at h
  by_cases hp : p ∈ l
  · rw [if_pos hp] at h
    exact Or.inl h
  · rw [if_neg hp] at h
    rcases List.mem_append.mp h with h | h
    · exact Or.inl h
    · exact Or.inr (by simpa using h)

theorem succs_dir_child_mem {fs : FS} {p : FPath} {n : String}
    (hlk : lookupFS fs p = some FsEntry.dir)
    (hce : (n, FsEntry.dir) ∈ childEntries fs p) :
    (p ++ [n]) ∈ succs fs p := by
  unfold succs
  rw [hlk]
  simp only []
  rw [List.mem_flatMap]
  exact ⟨(n, FsEntry.dir), hce, by simp⟩

theorem succs_dir_md_refs {fs : FS} {p : FPath} {n : String}
    {toks : List MToken} (hlk : lookupFS fs p = some FsEntry.dir)
    (hce : (n, FsEntry.file toks) ∈ childEntries fs p)
    (hmd : mdName n = true) {r : FPath}
    (hr : r ∈ extractReferences toks p) : r ∈ succs fs p := by
  unfold succs
  rw [hlk]
  simp only []
  rw [List.mem_flatMap]
  refine ⟨(n, FsEntry.file toks), hce, ?_⟩
  dsimp only
  rw [if_pos hmd]
  exact hr

theorem SoundInv_files_add {fs : FS} {root : FPath} {s : TraceState}
    {c : FPath} (h : SoundInv fs root s) (hc : FilesSpec fs root c) :
    SoundInv fs root { s with files := addOnce s.files c } := by
  refine ⟨h.1, ?_⟩
  intro x hx
  rcases mem_addOnce_elim hx with hx | hx
  · exact h.2 x hx
  · rw [hx]; exact hc

theorem traceRefsF_Sound (fs : FS) (root : FPath) (f : Nat)
    (htr : ∀ (r : FPath) (s : TraceState), SoundInv fs root s →
      Reaches fs root r → SoundInv fs root (traceStep fs f r s)) :
    ∀ rs (s : TraceState), SoundInv fs root s →
      (∀ r ∈ rs, Reaches fs root r) →
      SoundInv fs root (traceRefsF (traceStep fs f) rs s)
  | [], _, h, _ => h
  | r :: rest, s, h, hrs =>
    traceRefsF_Sound fs root f htr rest _
      (htr r s h (hrs r (List.mem_cons_self _ _)))
      (fun x hx => hrs x (List.mem_cons_of_mem r hx))

theorem traceChildrenF_Sound (fs : FS) (root : FPath) (f : Nat)
    (hwf : (fs.map (fun e => e.1)).Nodup)
    (htr : ∀ (r : FPath) (s : TraceState), SoundInv fs root s →
      Reaches fs root r → SoundInv fs root (traceStep fs f r s))
    (p : FPath) (hreach : Reaches fs root p)
    (hdir : lookupFS fs p = some FsEntry.dir) :
    ∀ entries (s : TraceState), (∀ ce ∈ entries, ce ∈ childEntries fs p) →
      SoundInv fs root s →
      SoundInv fs root (traceChildrenF (traceStep fs f) p entries s)
  | [], _, _, h => h
  | (n, FsEntry.dir) :: rest, s, hent, h =>
    traceChildrenF_Sound fs root f hwf htr p hreach hdir rest _
      (fun ce hce => hent ce (List.mem_cons_of_mem _ hce))
      (htr (p ++ [n]) s h
        (Reaches.step hreach
          (succs_dir_child_mem hdir (hent _ (List.mem_cons_self _ _)))))
  | (n, FsEntry.file toks) :: rest, s, hent, h => by
    rw [traceChildrenF]
    dsimp only
    have hce : (n, FsEntry.file toks) ∈ childEntries fs p :=
      hent _ (List.mem_cons_self _ _)
    have hrest : ∀ ce ∈ rest, ce ∈ childEntries fs p :=
      fun ce hce2 => hent ce (List.mem_cons_of_mem _ hce2)
    have hfspec : FilesSpec fs root (p ++ [n]) := by
      refine Or.inr ⟨by simp, ?_, ?_, ?_⟩
      · rw [List.dropLast_concat]; exact hreach
      · rw [List.dropLast_concat]; exact hdir
      · rw [isFileB_iff]
        exact ⟨toks, childEntries_lookup hwf hce⟩
    have h1 : SoundInv fs root
        { s with files := addOnce s.files (p ++ [n]) } :=
      SoundInv_files_add h hfspec
    by_cases hmd : mdName n = true
    · rw [if_pos hmd]
      refine traceChildrenF_Sound fs root f hwf htr p hreach hdir rest _
        hrest ?_
      refine traceRefsF_Sound fs root f htr _ _ h1 ?_
      intro r hrr
      exact Reaches.step hreach (succs_dir_md_refs hdir hce hmd hrr)
    · rw [if_neg hmd]
      exact traceChildrenF_Sound fs root f hwf htr p hreach hdir rest _
        hrest h1

theorem traceStep_Sound (fs : FS) (root : FPath)
    (hwf : (fs.map (fun e => e.1)).Nodup) :
    ∀ f (p : FPath) (s : TraceState), SoundInv fs root s →
      Reaches fs root p → SoundInv fs root (traceStep fs f p s) := by
  intro f
  induction f with
  | zero => intro p s h _; exact h
  | succ f ih =>
    intro p s h hreach
    rw [traceStep]
    by_cases hv : p ∈ s.visited
    · rw [if_pos hv]; exact h
    · rw [if_neg hv]
      have h1 : SoundInv fs root
          { visited := s.visited ++ [p], files := s.files,
            errors := s.errors } := by
        refine ⟨?_, h.2⟩
        intro q hq
        rcases List.mem_append.mp hq with hx | hx
        · exact h.1 q hx
        · rw [List.mem_singleton.mp hx]; exact hreach
      cases hlk : lookupFS fs p with
      | none =>
        simp only [hlk]
        exact ⟨h1.1, h1.2⟩
      | some e =>
        cases e with
        | dir =>
          simp only [hlk]
          exact traceChildrenF_Sound fs root f hwf
            (fun r s hs hr => ih r s hs hr) p hreach hlk _ _
            (fun ce hce => hce) h1
        | file toks =>
          simp only [hlk]
          have hfspec : FilesSpec fs root p := by
            refine Or.inl ⟨hreach, ?_⟩
            rw [isFileB_iff]
            exact ⟨toks, hlk⟩
          have h2 : SoundInv fs root
              { visited := s.visited ++ [p],
                files := addOnce s.files p, errors := s.errors } :=
            SoundInv_files_add h1 hfspec
          by_cases hmd : mdPath p = true
          · rw [if_pos hmd]
            refine traceRefsF_Sound fs root f
              (fun r s hs hr => ih r s hs hr) _ _ h2 ?_
            intro r hrr
            refine Reaches.step hreach ?_
            rw [succs_file_md hlk hmd]
            exact hrr
          · rw [if_neg hmd]
            exact h2

/-! ### The main trace correctness theorem -/

theorem traceReferences_correct (fs : FS) (root : FPath)
    (hwf : (fs.map (fun e => e.1)).Nodup) :
    (∀ q, q ∈ (traceReferences fs root).visited ↔ Reaches fs root q) ∧
    (∀ c, c ∈ (traceReferences fs root).files ↔ FilesSpec fs root c) ∧
    InvNE fs (traceReferences fs root) := by
  have hInvInit : InvNE fs ⟨[], [], []⟩ := ⟨List.nodup_nil, rfl⟩
  have hcond : CondF fs root (traceFuel fs root) ⟨[], [], []⟩ := by
    refine ⟨hInvInit, ?_, ?_⟩
    · intro x hx
      exact absurd hx (List.not_mem_nil x)
    · unfold traceFuel
      simp
  have hclosed := traceStep_Closed fs root (traceFuel fs root) root
    ⟨[], [], []⟩ hcond (root_mem_traceUniverse fs root)
  have hsound := traceStep_Sound fs root hwf (traceFuel fs root) root
    ⟨[], [], []⟩
    ⟨fun q hq => absurd hq (List.not_mem_nil q),
     fun c hc => absurd hc (List.not_mem_nil c)⟩
    Reaches.root
  have hInv : InvNE fs (traceReferences fs root) :=
    traceStep_InvNE fs (traceFuel fs root) root ⟨[], [], []⟩ hInvInit
  have hvis : ∀ q, q ∈ (traceReferences fs root).visited ↔
      Reaches fs root q := by
    intro q
    constructor
    · intro hq
      exact hsound.1 q hq
    · intro hreach
      induction hreach with
      | root => exact hclosed.2
      | step hp hsucc ih =>
        exact (hclosed.1 _ ih (List.not_mem_nil _)).1 _ hsucc
  refine ⟨hvis, ?_, hInv⟩
  intro c
  constructor
  · intro hc
    exact hsound.2 c hc
  · intro hc
    rcases hc with ⟨hreach, hfile⟩ | ⟨hcne, hreachp, hdirp, hfile⟩
    · have hcvis : c ∈ (traceReferences fs root).visited :=
        (hvis c).mpr hreach
      exact (hclosed.1 c hcvis (List.not_mem_nil c)).2.1 hfile
    · have hpvis : c.dropLast ∈ (traceReferences fs root).visited :=
        (hvis c.dropLast).mpr hreachp
      exact (hclosed.1 c.dropLast hpvis (List.not_mem_nil _)).2.2 c hcne rfl
        hdirp hfile

/-- C1: the walk terminates on every reference graph, cyclic or not (a
fuel budget of one per universe path suffices and any larger budget
returns the same result), revisiting an already-visited absolute path
is a no-op, each absolute path enters the visited set at most once, and
the returned file set is exactly the closure of files reachable from
the root document. -/
theorem trace_terminates_visits_once_closure (fs : FS) (root : FPath)
    (hwf : (fs.map (fun e => e.1)).Nodup) :
    (∀ f, traceFuel fs root ≤ f →
      traceStep fs f root ⟨[], [], []⟩ = traceReferences fs root) ∧
    (∀ fuel (p : FPath) (s : TraceState), p ∈ s.visited →
      traceStep fs fuel p s = s) ∧
    (traceReferences fs root).visited.Nodup ∧
    (∀ c, c ∈ (traceReferences fs root).files ↔ FilesSpec fs root c) := by
  have hcond : CondF fs root (traceFuel fs root) ⟨[], [], []⟩ := by
    refine ⟨⟨List.nodup_nil, rfl⟩, ?_, ?_⟩
    · intro x hx
      exact absurd hx (List.not_mem_nil x)
    · unfold traceFuel
      simp
  have hcorr := traceReferences_correct fs root hwf
  refine ⟨?_, traceStep_visited_noop fs, hcorr.2.2.1, hcorr.2.1⟩
  intro f hf
  unfold traceReferences
  exact (traceStep_fuel_ge fs root (traceFuel fs root) f hf root ⟨[], [], []⟩
    hcond (root_mem_traceUniverse fs root)).symm

/-- Witness for C1 at a concrete cyclic graph: two markdown documents
referencing each other; extra fuel does not change the result. -/
theorem trace_terminates_visits_once_closure_witness :
    traceStep
        [(["r", "SKILL.md"], FsEntry.file [MToken.link "a.md" []]),
         (["r", "a.md"], FsEntry.file [MToken.link "SKILL.md" []])]
        (traceFuel
          [(["r", "SKILL.md"], FsEntry.file [MToken.link "a.md" []]),
           (["r", "a.md"], FsEntry.file [MToken.link "SKILL.md" []])]
          ["r", "SKILL.md"] + 2)
        ["r", "SKILL.md"] ⟨[], [], []⟩ =
      traceReferences
        [(["r", "SKILL.md"], FsEntry.file [MToken.link "a.md" []]),
         (["r", "a.md"], FsEntry.file [MToken.link "SKILL.md" []])]
        ["r", "SKILL.md"] :=
  (trace_terminates_visits_once_closure
    [(["r", "SKILL.md"], FsEntry.file [MToken.link "a.md" []]),
     (["r", "a.md"], FsEntry.file [MToken.link "SKILL.md" []])]
    ["r", "SKILL.md"] (by decide)).1 _ (Nat.le_add_right _ 2)

/-- C7: an unresolved reference never aborts the trace: the error list
is exactly the visited missing paths in visit order (each exactly once),
a path is a visited missing path precisely when it is a reachable
missing reference, the returned file set is exactly the closure of
files reachable via valid references, and no missing path is ever a
member of the file set. -/
theorem trace_missing_never_fatal (fs : FS) (root : FPath)
    (hwf : (fs.map (fun e => e.1)).Nodup) :
    ((traceReferences fs root).errors =
      ((traceReferences fs root).visited.filter
        (fun q => (lookupFS fs q).isNone)).map errMsg) ∧
    (∀ q, (q ∈ (traceReferences fs root).visited ∧ lookupFS fs q = none) ↔
      (Reaches fs root q ∧ lookupFS fs q = none)) ∧
    ((traceReferences fs root).visited.filter
      (fun q => (lookupFS fs q).isNone)).Nodup ∧
    (∀ c, c ∈ (traceReferences fs root).files ↔ FilesSpec fs root c) ∧
    (∀ c ∈ (traceReferences fs root).files,
      (lookupFS fs c).isSome = true) := by
  have hcorr := traceReferences_correct fs root hwf
  refine ⟨hcorr.2.2.2, ?_, hcorr.2.2.1.filter _, hcorr.2.1, ?_⟩
  · intro q
    constructor
    · rintro ⟨hv, hm⟩
      exact ⟨(hcorr.1 q).mp hv, hm⟩
    · rintro ⟨hr, hm⟩
      exact ⟨(hcorr.1 q).mpr hr, hm⟩
  · intro c hc
    have hspec := (hcorr.2.1 c).mp hc
    rcases hspec with ⟨_, hfile⟩ | ⟨_, _, _, hfile⟩ <;>
    · rw [isFileB_iff] at hfile
      obtain ⟨toks, ht⟩ := hfile
      rw [ht]
      rfl

/-- Witness for C7 at a concrete graph with one missing reference. -/
theorem trace_missing_never_fatal_witness :
    (traceReferences
        [(["r", "SKILL.md"],
          FsEntry.file [MToken.link "a.md" [], MToken.link "missing.md" []]),
         (["r", "a.md"], FsEntry.file [])]
        ["r", "SKILL.md"]).errors =
      ((traceReferences
        [(["r", "SKILL.md"],
          FsEntry.file [MToken.link "a.md" [], MToken.link "missing.md" []]),
         (["r", "a.md"], FsEntry.file [])]
        ["r", "SKILL.md"]).visited.filter
          (fun q => (lookupFS
            [(["r", "SKILL.md"],
              FsEntry.file [MToken.link "a.md" [],
                MToken.link "missing.md" []]),
             (["r", "a.md"], FsEntry.file [])] q).isNone)).map errMsg :=
  (trace_missing_never_fatal
    [(["r", "SKILL.md"],
      FsEntry.file [MToken.link "a.md" [], MToken.link "missing.md" []]),
     (["r", "a.md"], FsEntry.file [])]
    ["r", "SKILL.md"] (by decide)).1

/-! ### Reference extraction theorems -/

theorem renderAbs_length_pos (p : FPath) : 0 < (renderAbs p).length := by
  unfold renderAbs
  rw [String.length_append]
  have : ("/" : String).length = 1 := rfl
  omega

mutual

theorem tokenRefs_eq_links (t : MToken) (h : noCode t = true) :
    tokenRefs t = ((linkHrefs t).filter keepHref).map stripFragStr := by
  cases t with
  | link href sub =>
    rw [noCode] at h
    rw [tokenRefs, linkHrefs, tokenListRefs_eq_links sub h]
    by_cases hk : keepHref href = true
    · rw [if_pos hk, List.filter_cons_of_pos hk, List.map_cons]
      rfl
    · rw [if_neg hk, List.filter_cons_of_neg (by simpa using hk)]
      rfl
  | codeTok lang => exact absurd h (by rw [noCode]; simp)
  | listTok items =>
    rw [noCode] at h
    rw [tokenRefs, linkHrefs, tokenItemsRefs_eq_links items h]
  | node sub =>
    rw [noCode] at h
    rw [tokenRefs, linkHrefs, tokenListRefs_eq_links sub h]
  | leaf => rfl

theorem tokenListRefs_eq_links (ts : List MToken) (h : noCodeList ts = true) :
    tokenListRefs ts =
      ((linkHrefsList ts).filter keepHref).map stripFragStr := by
  cases ts with
  | nil => rfl
  | cons t rest =>
    rw [noCodeList, Bool.and_eq_true] at h
    rw [tokenListRefs, linkHrefsList, List.filter_append, List.map_append,
      tokenRefs_eq_links t h.1, tokenListRefs_eq_links rest h.2]

theorem tokenItemsRefs_eq_links (its : List (List MToken))
    (h : noCodeItems its = true) :
    tokenItemsRefs its =
      ((linkHrefsItems its).filter keepHref).map stripFragStr := by
  cases its with
  | nil => rfl
  | cons i rest =>
    rw [noCodeItems, Bool.and_eq_true] at h
    rw [tokenItemsRefs, linkHrefsItems, List.filter_append, List.map_append,
      tokenListRefs_eq_links i h.1, tokenItemsRefs_eq_links rest h.2]

end

/-- C8 counterexample: a local file whose name begins with the four
characters of the http prefix is excluded by the walk even though it
has no recognized external URL scheme, so the candidate set is not
exactly the targets without a recognized scheme. -/
theorem extractReferences_excludes_http_prefixed_local :
    extractReferences [MToken.link "http-setup.md" []] ["root"] = [] ∧
    specCandidates [MToken.link "http-setup.md" []] ["root"] =
      [["root", "http-setup.md"]] := by
  constructor
  · simp [extractReferences, tokenListRefs, tokenRefs, keepHref]
  · simp [specCandidates, linkHrefsList, linkHrefs, specExternalScheme]
    decide

/-- C8 amended: for a markdown document without fenced code blocks, the
candidate references are exactly the inline link targets that are
truthy, do not start with the literal prefix http (the code's
external-link test, which drops http and https URLs but also any local
target beginning with those four characters) and are not pure
same-document fragments, each with a trailing fragment stripped and
resolved against the containing document's own directory. -/
theorem extractReferences_eq_kept_links (tokens : List MToken) (base : FPath)
    (h : noCodeList tokens = true) :
    extractReferences tokens base =
      ((linkHrefsList tokens).filter keepHref).map
        (fun href => resolvePath base (stripFragStr href)) := by
  unfold extractReferences
  rw [tokenListRefs_eq_links tokens h]
  rw [List.filter_eq_self.mpr]
  · rw [List.map_map]
    rfl
  · intro a _
    have := renderAbs_length_pos a
    simpa using this

/-- Witness for the amended C8 at a concrete input. -/
theorem extractReferences_eq_kept_links_witness :
    extractReferences
        [MToken.link "a.md#x" [], MToken.link "https://e.com" []] ["r"] =
      ((linkHrefsList
        [MToken.link "a.md#x" [], MToken.link "https://e.com" []]).filter
          keepHref).map
        (fun href => resolvePath ["r"] (stripFragStr href)) :=
  extractReferences_eq_kept_links
    [MToken.link "a.md#x" [], MToken.link "https://e.com" []] ["r"] (by rfl)

/-! ### Pack orchestration theorems -/

/-- C4 counterexample: a root document with a non-standard field makes
packaging abort with the invalid-header error, but the zip layout has
already created (truncated) the output file and the flat layout has
already created the output directory when validation runs, so the
effect trace is not empty. -/
theorem pack_invalid_header_output_already_created :
    pack { files := [["r", "SKILL.md"]],
           skillPath := ["r", "SKILL.md"],
           outputPath := "out.skill", categories := some [],
           skillContent := "---\nname: a\ntags: b\n---\n# S" } =
      ([FsEffect.createFile "out.skill"],
       Except.error (invalidFieldsMsg ["tags"])) ∧
    packFlat { files := [["r", "SKILL.md"]],
               skillPath := ["r", "SKILL.md"],
               outputPath := "outdir", categories := some [],
               skillContent := "---\nname: a\ntags: b\n---\n# S" } =
      ([FsEffect.mkdirRec "outdir"],
       Except.error (invalidFieldsMsg ["tags"])) := by
  exact ⟨rfl, rfl⟩

/-- C4 amended: for every root document whose header block contains a
field outside the allow-list, packaging in any layout aborts with the
invalid-header error naming every offending field, and no file content,
archive entry or copy is written; however the zip output stream is
created and the flat (or preserve) output directory is created before
validation runs, so an empty output file or directory can be left
behind. -/
theorem pack_invalid_header_aborts_after_creation (i : PackInput)
    (cats : List (FPath × Category)) (pm : List (String × String))
    (hc : i.categories = some cats)
    (hpm : buildFlatPathMap i.files i.skillPath cats = Except.ok pm)
    (hinv : headerInvalidKeys i.skillContent ≠ []) :
    pack i = ([FsEffect.createFile i.outputPath],
      Except.error (invalidFieldsMsg (headerInvalidKeys i.skillContent))) ∧
    packFlat i = ([FsEffect.mkdirRec i.outputPath],
      Except.error (invalidFieldsMsg (headerInvalidKeys i.skillContent))) ∧
    (∀ rest, i.files = i.skillPath :: rest →
      packPreserve i =
        ([FsEffect.mkdirRec i.outputPath,
          FsEffect.mkdirRec (dirnameStr
            (joinPath i.outputPath (relOf i.skillPath i.skillPath)))],
         Except.error (invalidFieldsMsg (headerInvalidKeys i.skillContent)))) := by
  have hv := validateFrontmatter_error_of_invalid i.skillContent hinv
  refine ⟨?_, ?_, ?_⟩
  · unfold pack
    rw [hc]
    simp only []
    rw [hpm]
    simp only []
    rw [hv]
  · unfold packFlat
    rw [hc]
    simp only []
    rw [hpm]
    simp only []
    rw [hv]
  · intro rest hfiles
    unfold packPreserve
    rw [hfiles]
    rw [packPreserveLoop]
    simp only [if_pos rfl]
    rw [hv]
    simp

/-- Witness for the amended C4 at a concrete input. -/
theorem pack_invalid_header_aborts_after_creation_witness :
    pack { files := [["r", "SKILL.md"]],
           skillPath := ["r", "SKILL.md"],
           outputPath := "out.skill", categories := some [],
           skillContent := "---\nname: a\ntags: b\n---\n# S" } =
      ([FsEffect.createFile "out.skill"],
       Except.error (invalidFieldsMsg
         (headerInvalidKeys "---\nname: a\ntags: b\n---\n# S"))) :=
  (pack_invalid_header_aborts_after_creation
    { files := [["r", "SKILL.md"]],
      skillPath := ["r", "SKILL.md"],
      outputPath := "out.skill", categories := some [],
      skillContent := "---\nname: a\ntags: b\n---\n# S" }
    [] [] rfl (by rfl) (by decide)).1

/-- Witness for the amended C6 at a concrete input. -/
theorem rewriteSkillContent_idempotent_on_stable_witness :
    rewriteSkillContent
        (rewriteSkillContent "See [text](docs/api.md#section)."
          [("docs/api.md", "references/api.md")])
        [("docs/api.md", "references/api.md")] =
      rewriteSkillContent "See [text](docs/api.md#section)."
        [("docs/api.md", "references/api.md")] :=
  rewriteSkillContent_idempotent_on_stable
    [("docs/api.md", "references/api.md")]
    "See [text](docs/api.md#section)." (by decide)

end Skillpack
